import Mathlib

/-
  Verification development for the drw.c text-rendering support layer of sent.

  The shallow embedding below translates the algorithmic core of src/drw.c:
  the UTF-8 codec (utf8decodebyte, utf8validate, utf8decode), the bounded
  font cache (drw_load_fonts), and the run segmenter / fitter (drw_text).
  External X11/Xft/fontconfig collaborators are abstracted as pure functions
  in a DrwEnv record: glyph coverage queries, string width measurement,
  fontconfig pattern matching and font opening.
-/

namespace DrwSpec

/-- Replacement codepoint for malformed sequences (UTF_INVALID in drw.c). -/
def UTF_INVALID : Nat := 0xFFFD

/-- Table utfbyte from drw.c. -/
def utfbyte : Nat → Nat
  | 0 => 0x80
  | 1 => 0
  | 2 => 0xC0
  | 3 => 0xE0
  | 4 => 0xF0
  | _ => 0

/-- Table utfmask from drw.c. -/
def utfmask : Nat → Nat
  | 0 => 0xC0
  | 1 => 0x80
  | 2 => 0xE0
  | 3 => 0xF0
  | 4 => 0xF8
  | _ => 0

/-- Table utfmin from drw.c. -/
def utfmin : Nat → Nat
  | 0 => 0
  | 1 => 0
  | 2 => 0x80
  | 3 => 0x800
  | 4 => 0x10000
  | _ => 0

/-- Table utfmax from drw.c. -/
def utfmax : Nat → Nat
  | 0 => 0x10FFFF
  | 1 => 0x7F
  | 2 => 0x7FF
  | 3 => 0xFFFF
  | 4 => 0x10FFFF
  | _ => 0

/-- The BETWEEN(X, A, B) macro of util.h (header not shipped with the snippet);
    standard suckless definition ((A) <= (X) && (X) <= (B)), matching the
    spec's inclusive range checks. -/
def BETWEEN (x a b : Nat) : Bool := decide (a ≤ x) && decide (x ≤ b)

/-- utf8decodebyte from drw.c: find the first index i with
    (c & utfmask[i]) == utfbyte[i] and return c & ~utfmask[i] together with
    that i; when no entry matches the loop falls through with value 0 and
    i = UTF_SIZ + 1 = 5.  The input is reduced mod 256, modelling the
    unsigned char cast. -/
def utf8decodebyte (c : Nat) : Nat × Nat :=
  let b := c % 256
  if b &&& utfmask 0 = utfbyte 0 then (b &&& (0xFF ^^^ utfmask 0), 0)
  else if b &&& utfmask 1 = utfbyte 1 then (b &&& (0xFF ^^^ utfmask 1), 1)
  else if b &&& utfmask 2 = utfbyte 2 then (b &&& (0xFF ^^^ utfmask 2), 2)
  else if b &&& utfmask 3 = utfbyte 3 then (b &&& (0xFF ^^^ utfmask 3), 3)
  else if b &&& utfmask 4 = utfbyte 4 then (b &&& (0xFF ^^^ utfmask 4), 4)
  else (0, 5)

/-- The second loop of utf8validate: for(i = 1; *u > utfmax[i]; ++i).
    Total here; the scalar reaching it from utf8decode is at most
    0x10FFFF = utfmax 4, where the scan stops in bounds. -/
def utf8validateLen (u : Nat) : Nat :=
  if u ≤ utfmax 1 then 1 else if u ≤ utfmax 2 then 2
  else if u ≤ utfmax 3 then 3 else 4

/-- utf8validate from drw.c: clamp scalars that are out of range for their
    encoded length, or in the UTF-16 surrogate range, to UTF_INVALID, then
    recompute the encoded length of the resulting scalar. -/
def utf8validate (u : Nat) (i : Nat) : Nat × Nat :=
  let u2 := if !BETWEEN u (utfmin i) (utfmax i) || BETWEEN u 0xD800 0xDFFF
    then UTF_INVALID else u
  (u2, utf8validateLen u2)

/-- The continuation-byte loop of utf8decode.  The C loop counters i and j
    advance in lockstep, collapsed here into the single counter k.  Reading
    past the end of the list yields byte 0, matching the NUL terminator of a
    C string. -/
def utf8decodeCont (c : List Nat) (clen len k ud : Nat) : Nat × Nat :=
  if h : k < clen ∧ k < len then
    if (utf8decodebyte (c.getD k 0)).2 ≠ 0 then (UTF_INVALID, k)
    else utf8decodeCont c clen len (k + 1) ((ud <<< 6) ||| (utf8decodebyte (c.getD k 0)).1)
  else if k < len then (UTF_INVALID, 0)
  else ((utf8validate ud len).1, len)
termination_by len - k
decreasing_by omega

/-- utf8decode from drw.c: decode one codepoint from at most clen bytes,
    returning (codepoint, consumed byte count). -/
def utf8decode (c : List Nat) (clen : Nat) : Nat × Nat :=
  if clen = 0 then (UTF_INVALID, 0)
  else if !BETWEEN (utf8decodebyte (c.getD 0 0)).2 1 4 then (UTF_INVALID, 1)
  else utf8decodeCont c clen (utf8decodebyte (c.getD 0 0)).2 1 (utf8decodebyte (c.getD 0 0)).1

/-- The raw scalar assembled by the decode loop on full collection: the lead
    byte value shifted left 6 bits per continuation byte, or-ed with each
    continuation byte's payload. -/
def utf8raw (c : List Nat) (len : Nat) : Nat :=
  (List.range (len - 1)).foldl
    (fun ud k => (ud <<< 6) ||| (utf8decodebyte (c.getD (k + 1) 0)).1)
    (utf8decodebyte (c.getD 0 0)).1

/-- Within drw_text utf8decode is always called with clen = UTF_SIZ = 4 and a
    lead length in 1..4, so the loop always consumes at least one byte. -/
theorem utf8decodeCont_snd_bounds (c : List Nat) (clen len : Nat)
    (hl : 1 ≤ len) (hcl : len ≤ clen) :
    ∀ k ud, 1 ≤ k → 1 ≤ (utf8decodeCont c clen len k ud).2 ∧
      (utf8decodeCont c clen len k ud).2 ≤ len := by
  have main : ∀ n k ud, len - k ≤ n → 1 ≤ k →
      1 ≤ (utf8decodeCont c clen len k ud).2 ∧
      (utf8decodeCont c clen len k ud).2 ≤ len := by
    intro n
    induction n with
    | zero =>
      intro k ud hn hk
      rw [utf8decodeCont]
      have hkl : ¬ (k < len) := by omega
      rw [dif_neg (fun hh => hkl hh.2), if_neg hkl]
      exact ⟨hl, le_refl len⟩
    | succ n ih =>
      intro k ud hn hk
      rw [utf8decodeCont]
      by_cases h : k < clen ∧ k < len
      · rw [dif_pos h]
        by_cases hv : (utf8decodebyte (c.getD k 0)).2 ≠ 0
        · rw [if_pos hv]
          exact ⟨hk, le_of_lt h.2⟩
        · rw [if_neg hv]
          exact ih (k + 1) _ (by omega) (by omega)
      · rw [dif_neg h]
        have hkl : ¬ (k < len) := by omega
        rw [if_neg hkl]
        exact ⟨hl, le_refl len⟩
  intro k ud hk
  exact main (len - k) k ud (le_refl _) hk

/-- utf8decode with clen = 4 always consumes between 1 and 4 bytes: the
    scanner in drw_text makes forward progress on every codepoint. -/
theorem utf8decode_snd_bounds (c : List Nat) :
    1 ≤ (utf8decode c 4).2 ∧ (utf8decode c 4).2 ≤ 4 := by
  rw [utf8decode, if_neg (by omega : ¬ (4 : Nat) = 0)]
  by_cases hb : BETWEEN (utf8decodebyte (c.getD 0 0)).2 1 4 = true
  · rw [if_neg (by rw [hb]; decide)]
    have h1 : 1 ≤ (utf8decodebyte (c.getD 0 0)).2 ∧
        (utf8decodebyte (c.getD 0 0)).2 ≤ 4 := by
      simpa [BETWEEN] using hb
    have := utf8decodeCont_snd_bounds c 4 (utf8decodebyte (c.getD 0 0)).2
      h1.1 h1.2 1 (utf8decodebyte (c.getD 0 0)).1 (le_refl 1)
    exact ⟨this.1, this.2.trans h1.2⟩
  · rw [if_pos (by simp only [Bool.not_eq_true] at hb; rw [hb]; decide)]
    exact ⟨le_refl 1, by omega⟩

/-- A loaded font (Fnt in drw.h/drw.c), reduced to what drw_text observes:
    an identity for the underlying XftFont handle, whether font->pattern is
    non-null (only fonts opened from a textual spec carry one), and the
    height ascent + descent. -/
structure Fnt where
  fid : Nat
  hasPattern : Bool
  height : Nat
deriving DecidableEq

/-- Placeholder Fnt used for out-of-bounds reads that the C code guards
    against dynamically. -/
def noFnt : Fnt := ⟨0, false, 0⟩

/-- The external collaborators of drw.c, abstracted as pure functions:
    XftCharExists, XftTextExtentsUtf8 (the returned xOff for the given
    bytes), XftFontMatch on the pattern built for a codepoint from the
    primary font's template, XftFontOpenPattern on a match result, and
    XftFontOpenName + FcNameParse on a textual font spec.  Open results are
    (font identity, height) pairs. -/
structure DrwEnv where
  glyphExists : Nat → Nat → Bool
  measureW : Nat → List Nat → Nat
  matchFont : Nat → Option Nat
  openPattern : Nat → Option (Nat × Nat)
  openName : Nat → Option (Nat × Nat)

/-- drw_load_fonts from drw.c: load each spec in order; die ("Font cache
    exhausted") when the cache is already at capacity, skip specs whose
    load fails (drw_font_xcreate reports and returns NULL), append
    successful loads.  Returns the final cache and whether die was hit;
    fonts opened from a name carry a pattern (FcNameParse). -/
def drw_load_fonts (env : DrwEnv) (CAP : Nat) (cache : List Fnt)
    (specs : List Nat) : List Fnt × Bool :=
  match specs with
  | [] => (cache, false)
  | s :: rest =>
    if CAP ≤ cache.length then (cache, true)
    else
      match env.openName s with
      | some fh => drw_load_fonts env CAP (cache ++ [⟨fh.1, true, fh.2⟩]) rest
      | none => drw_load_fonts env CAP cache rest

/-- The font scan of drw_text's inner loop when charexists enters false:
    index of the first cached font whose glyph table contains the
    codepoint. -/
def firstHit (env : DrwEnv) (fonts : List Fnt) (cp : Nat) : Option Nat :=
  fonts.findIdx? (fun f => env.glyphExists f.fid cp)

/-- One pass of the for-loop over the cache in drw_text, including the
    short-circuit through a stale charexists = 1: the index selected for
    the current codepoint, if any.  With charexists already set the loop
    stops at i = 0 without consulting XftCharExists. -/
def scanIdx (env : DrwEnv) (fonts : List Fnt) (ce : Bool) (cp : Nat) :
    Option Nat :=
  if ce then (if fonts.isEmpty then none else some 0)
  else firstHit env fonts cp

/-- Result of one run-collection pass (the inner while (*text) loop of
    drw_text): bytes consumed into the current run (utf8strlen), the
    remaining text pointer, the pending font switch (nextfont), the last
    decoded codepoint (utf8codepoint) and the charexists flag at exit. -/
structure InnerRes where
  consumed : Nat
  rest : List Nat
  nextfont : Option Nat
  cp : Nat
  ceOut : Bool
deriving DecidableEq

/-- The inner while (*text) loop of drw_text.  Extends the run while the
    scanned font index equals curfont's index (charexists resets to 0 after
    each consumed character); breaks with nextfont set on a font switch, or
    with charexists = 0 when no cached font covers the codepoint.  A list
    entry 0 plays the role of the NUL terminator. -/
def innerLoop (env : DrwEnv) (fonts : List Fnt) (cur : Nat) (ce : Bool)
    (cp0 : Nat) (text : List Nat) : InnerRes :=
  match hm : text with
  | [] => ⟨0, text, none, cp0, ce⟩
  | b :: _ =>
    if b = 0 then ⟨0, text, none, cp0, ce⟩
    else
      match scanIdx env fonts ce (utf8decode text 4).1 with
      | some i =>
        if i = cur then
          ⟨(utf8decode text 4).2 +
              (innerLoop env fonts cur false (utf8decode text 4).1
                (text.drop (utf8decode text 4).2)).consumed,
            (innerLoop env fonts cur false (utf8decode text 4).1
              (text.drop (utf8decode text 4).2)).rest,
            (innerLoop env fonts cur false (utf8decode text 4).1
              (text.drop (utf8decode text 4).2)).nextfont,
            (innerLoop env fonts cur false (utf8decode text 4).1
              (text.drop (utf8decode text 4).2)).cp,
            (innerLoop env fonts cur false (utf8decode text 4).1
              (text.drop (utf8decode text 4).2)).ceOut⟩
        else ⟨0, text, some i, (utf8decode text 4).1, true⟩
      | none => ⟨0, text, none, (utf8decode text 4).1, false⟩
termination_by text.length
decreasing_by
  have h1 := (utf8decode_snd_bounds text).1
  subst hm
  simp only [List.length_drop, List.length_cons]
  omega

/-- The shorten-text for-loop of drw_text: while len is nonzero and the
    current extent exceeds the budget (or the budget is below the primary
    font height margin), re-measure the len-byte prefix and decrement len.
    Note the C quirk: the extent checked against the budget is the one
    measured for len + 1 (or the full run on entry). -/
def shrinkLoop (env : DrwEnv) (fid : Nat) (str : List Nat) (h0 w len ew : Nat) :
    Nat × Nat :=
  if len ≠ 0 ∧ (w - h0 < ew ∨ w < h0) then
    shrinkLoop env fid str h0 w (len - 1) (env.measureW fid (str.take len))
  else (len, ew)
termination_by len
decreasing_by omega

/-- The ellipsis overwrite of drw_text: when the kept length is shorter
    than the run, the loop for(i = len; i && i > len - 3; buf[--i] = '.')
    replaces the last three kept bytes by '.' (byte 46).  len - 3 is a
    size_t subtraction, so for len < 3 it wraps and the loop writes
    nothing. -/
def ellipsize (s : List Nat) (len runLen : Nat) : List Nat :=
  if len < runLen then
    if 3 ≤ len then s.take (len - 3) ++ [46, 46, 46] else s.take len
  else s.take len

/-- One emitted run: the font index and identity it was handed to
    XftDrawStringUtf8 with, the full run bytes (utf8str, utf8strlen), the
    kept length after shortening (len), the buffer contents (buf, with the
    ellipsis overwrite), and the extent ew by which the cursor advanced
    (0 advance when kept = 0). -/
structure TraceEntry where
  fontIdx : Nat
  ffid : Nat
  run : List Nat
  kept : Nat
  buf : List Nat
  width : Nat
deriving DecidableEq

/-- The mutable state of drw_text's outer while (1) loop. -/
structure TextState where
  fonts : List Fnt
  cur : Nat
  ce : Bool
  cp : Nat
  text : List Nat
  x : Int
  w : Nat
  trace : List TraceEntry
deriving DecidableEq

deriving instance DecidableEq for Except

/-- Whether *text is NUL: the remaining list is empty or starts with 0. -/
def atEnd (l : List Nat) : Bool :=
  match l with
  | [] => true
  | b :: _ => b = 0

/-- The bytes of the run collected by a pass: utf8str with length
    utf8strlen. -/
def runBytes (st : TextState) (consumed : Nat) : List Nat :=
  st.text.take consumed

/-- The font identity XftDrawStringUtf8 and drw_font_getexts are handed:
    curfont's xfont. -/
def curFid (st : TextState) : Nat :=
  (st.fonts.getD st.cur noFnt).fid

/-- The shorten-text loop applied as drw_text does: starting length
    MIN(utf8strlen, sizeof buf - 1) = min consumed 1023, starting extent
    the measure of the full run, margin fonts[0]->h, budget w. -/
def shrinkRes (env : DrwEnv) (st : TextState) (consumed : Nat) : Nat × Nat :=
  shrinkLoop env (curFid st) (runBytes st consumed)
    (st.fonts.headD noFnt).height st.w (min consumed 1023)
    (env.measureW (curFid st) (runBytes st consumed))

/-- The emission step of drw_text after a pass: measure the run, shorten it
    to the width budget, copy into buf with the ellipsis overwrite, draw and
    advance the cursor when a nonzero prefix is kept. -/
def emitRun (env : DrwEnv) (st : TextState) (consumed : Nat) : TextState :=
  if consumed = 0 then st
  else if (shrinkRes env st consumed).1 ≠ 0 then
    { st with
      x := st.x + ((shrinkRes env st consumed).2 : Int),
      w := st.w - (shrinkRes env st consumed).2,
      trace := st.trace ++ [⟨st.cur, curFid st, runBytes st consumed,
        (shrinkRes env st consumed).1,
        ellipsize (runBytes st consumed) (shrinkRes env st consumed).1 consumed,
        (shrinkRes env st consumed).2⟩] }
  else
    { st with trace := st.trace ++ [⟨st.cur, curFid st, runBytes st consumed,
      0, [], (shrinkRes env st consumed).2⟩] }

/-- The inner pass run from the current outer-loop state. -/
def passRes (env : DrwEnv) (st : TextState) : InnerRes :=
  innerLoop env st.fonts st.cur st.ce st.cp st.text

/-- One iteration of drw_text's outer while (1) loop: run one pass, emit
    the collected run, then either return the cursor (end of text), switch
    to nextfont, or perform the fallback-font acquisition: skip when the
    cache is full, die when fonts[0] has no pattern, else consult the
    matcher; a matched font containing the glyph is appended and becomes
    curfont, otherwise it is discarded and curfont falls back to fonts[0];
    a failed match leaves curfont unchanged.  In every fallback outcome
    charexists is forced to 1 so the character is drawn regardless. -/
def textIter (env : DrwEnv) (CAP : Nat) (st : TextState) :
    (Except Unit (Int × List Fnt × List TraceEntry)) ⊕ TextState :=
  if atEnd (passRes env st).rest then
    Sum.inl (Except.ok ((emitRun env st (passRes env st).consumed).x,
      (emitRun env st (passRes env st).consumed).fonts,
      (emitRun env st (passRes env st).consumed).trace))
  else
    match (passRes env st).nextfont with
    | some nf =>
      Sum.inr { emitRun env st (passRes env st).consumed with
        text := (passRes env st).rest, cp := (passRes env st).cp,
        ce := false, cur := nf }
    | none =>
      if CAP ≤ (emitRun env st (passRes env st).consumed).fonts.length then
        Sum.inr { emitRun env st (passRes env st).consumed with
          text := (passRes env st).rest, cp := (passRes env st).cp, ce := true }
      else if ¬ ((emitRun env st (passRes env st).consumed).fonts.headD
          noFnt).hasPattern then
        Sum.inl (Except.error ())
      else
        match env.matchFont (passRes env st).cp with
        | some pid =>
          match env.openPattern pid with
          | some fh =>
            if env.glyphExists fh.1 (passRes env st).cp then
              Sum.inr { emitRun env st (passRes env st).consumed with
                fonts := (emitRun env st (passRes env st).consumed).fonts ++
                  [⟨fh.1, false, fh.2⟩],
                cur := (emitRun env st (passRes env st).consumed).fonts.length,
                text := (passRes env st).rest, cp := (passRes env st).cp,
                ce := true }
            else
              Sum.inr { emitRun env st (passRes env st).consumed with
                cur := 0, text := (passRes env st).rest,
                cp := (passRes env st).cp, ce := true }
          | none =>
            Sum.inr { emitRun env st (passRes env st).consumed with
              cur := 0, text := (passRes env st).rest,
              cp := (passRes env st).cp, ce := true }
        | none =>
          Sum.inr { emitRun env st (passRes env st).consumed with
            text := (passRes env st).rest, cp := (passRes env st).cp,
            ce := true }

/-- The outer while (1) loop of drw_text, with explicit fuel; none means the
    fuel ran out (the termination theorem below shows enough fuel always
    exists), Except.error is the die path for a patternless primary font,
    and Except.ok carries the returned cursor x, the final font cache, and
    the emitted runs. -/
def textLoop (env : DrwEnv) (CAP : Nat) :
    Nat → TextState → Option (Except Unit (Int × List Fnt × List TraceEntry))
  | 0, _ => none
  | fuel + 1, st =>
    match textIter env CAP st with
    | Sum.inl r => some r
    | Sum.inr st2 => textLoop env CAP fuel st2

/-- Fuel sufficient for any drw_text call (established by the termination
    theorem): five steps per input byte and cache slot, plus slack for the
    bounded state machine of non-consuming iterations. -/
def drwTextFuel (CAP : Nat) (t : List Nat) : Nat := 5 * t.length + 5 * CAP + 9

/-- drw_text from drw.c.  drwOk and schemeOk model the null checks on drw
    and drw->scheme, text models the possibly-null text pointer.  With an
    all-zero geometry (the measure-only mode) the width budget becomes
    ~0 = 2^32 - 1 for the 32-bit unsigned w.  Returns 0 without laying out
    any text when drw, the scheme, the text or the font cache is missing. -/
def drw_text (env : DrwEnv) (CAP : Nat) (drwOk schemeOk : Bool)
    (fonts : List Fnt) (x y : Int) (w h : Nat) (text : Option (List Nat)) :
    Option (Except Unit (Int × List Fnt × List TraceEntry)) :=
  if ¬ drwOk ∨ ¬ schemeOk then some (Except.ok (0, fonts, []))
  else
    match text with
    | none => some (Except.ok (0, fonts, []))
    | some t =>
      if fonts.length = 0 then some (Except.ok (0, fonts, []))
      else textLoop env CAP (drwTextFuel CAP t)
        ⟨fonts, 0, false, 0, t, x,
          if x = 0 ∧ y = 0 ∧ w = 0 ∧ h = 0 then 4294967295 else w, []⟩

/-- Ranking of the states drw_text's outer loop can be in without consuming
    input: each non-consuming, non-appending iteration strictly lowers this
    rank, which bounds the bounded detour the loop takes through stale
    charexists values and font switches before the next character is
    consumed. -/
def phiAux (env : DrwEnv) (fonts : List Fnt) (cur : Nat) (ce : Bool) :
    List Nat → Nat
  | [] => 0
  | b :: tail =>
    if b = 0 then 0
    else if ce then (if cur = 0 then 0 else 3)
    else
      match firstHit env fonts (utf8decode (b :: tail) 4).1 with
      | some m => if m = cur then 0 else 1
      | none => if cur = 0 then 2 else 4

/-- The rank applied to an outer-loop state. -/
def phi (env : DrwEnv) (st : TextState) : Nat :=
  phiAux env st.fonts st.cur st.ce st.text

/-- Termination measure for drw_text's outer loop: five points per
    remaining input byte and per free cache slot, plus the phi rank. -/
def measureM (env : DrwEnv) (CAP : Nat) (st : TextState) : Nat :=
  5 * st.text.length + 5 * (CAP - st.fonts.length) + phi env st

/-- When fewer bytes than announced are available the loop never reaches the
    validation branch: it returns consumed = 0 on clean exhaustion, or the
    index of a bad continuation byte, both strictly below the announced
    length, and the codepoint stays at the replacement value. -/
theorem utf8decodeCont_short (c : List Nat) (clen len : Nat)
    (hc : clen < len) :
    ∀ k ud, k ≤ clen → (utf8decodeCont c clen len k ud).1 = UTF_INVALID ∧
      (utf8decodeCont c clen len k ud).2 < len := by
  have main : ∀ n k ud, len - k ≤ n → k ≤ clen →
      (utf8decodeCont c clen len k ud).1 = UTF_INVALID ∧
      (utf8decodeCont c clen len k ud).2 < len := by
    intro n
    induction n with
    | zero =>
      intro k ud hn hk
      omega
    | succ n ih =>
      intro k ud hn hk
      rw [utf8decodeCont]
      by_cases h : k < clen ∧ k < len
      · rw [dif_pos h]
        by_cases hv : (utf8decodebyte (c.getD k 0)).2 ≠ 0
        · rw [if_pos hv]
          exact ⟨rfl, h.2⟩
        · rw [if_neg hv]
          exact ih (k + 1) _ (by omega) (by omega)
      · rw [dif_neg h]
        have hkl : k < len := by omega
        rw [if_pos hkl]
        exact ⟨rfl, by omega⟩
  intro k ud hk
  exact main (len - k) k ud (le_refl _) hk

/-- C6: if the lead byte announces an n-byte sequence but fewer than n bytes
    are available within the maxLen limit, utf8decode returns a consumed
    count strictly less than n — a non-failing need-more-input result with
    the codepoint left at the replacement value, not an assertion of a
    successful decode. -/
theorem utf8decode_need_more (c : List Nat) (clen : Nat)
    (hlead : BETWEEN (utf8decodebyte (c.getD 0 0)).2 1 4 = true)
    (hshort : clen < (utf8decodebyte (c.getD 0 0)).2) :
    (utf8decode c clen).1 = UTF_INVALID ∧
      (utf8decode c clen).2 < (utf8decodebyte (c.getD 0 0)).2 := by
  have hlen : 1 ≤ (utf8decodebyte (c.getD 0 0)).2 ∧
      (utf8decodebyte (c.getD 0 0)).2 ≤ 4 := by
    simpa [BETWEEN] using hlead
  rw [utf8decode]
  by_cases h0 : clen = 0
  · rw [if_pos h0]
    exact ⟨rfl, by omega⟩
  · rw [if_neg h0, if_neg (by rw [hlead]; decide)]
    exact utf8decodeCont_short c clen _ hshort 1 _ (by omega)

/-- Witness for C6: the truncated Euro-sign sequence E2 82 with only two
    bytes available announces a 3-byte sequence and yields a need-more-input
    result. -/
theorem utf8decode_need_more_witness :
    BETWEEN (utf8decodebyte (([0xE2, 0x82] : List Nat).getD 0 0)).2 1 4 = true ∧
    2 < (utf8decodebyte (([0xE2, 0x82] : List Nat).getD 0 0)).2 ∧
    (utf8decode [0xE2, 0x82] 2).1 = UTF_INVALID ∧
    (utf8decode [0xE2, 0x82] 2).2 < (utf8decodebyte (([0xE2, 0x82] : List Nat).getD 0 0)).2 :=
  ⟨by decide, by decide,
    utf8decode_need_more [0xE2, 0x82] 2 (by decide) (by decide)⟩

theorem utf8raw_one (c : List Nat) :
    utf8raw c 1 = (utf8decodebyte (c.getD 0 0)).1 := rfl

theorem utf8raw_two (c : List Nat) :
    utf8raw c 2 = (((utf8decodebyte (c.getD 0 0)).1 <<< 6) |||
      (utf8decodebyte (c.getD 1 0)).1) := rfl

theorem utf8raw_three (c : List Nat) :
    utf8raw c 3 = (((((utf8decodebyte (c.getD 0 0)).1 <<< 6) |||
      (utf8decodebyte (c.getD 1 0)).1) <<< 6) |||
      (utf8decodebyte (c.getD 2 0)).1) := rfl

theorem utf8raw_four (c : List Nat) :
    utf8raw c 4 = (((((((utf8decodebyte (c.getD 0 0)).1 <<< 6) |||
      (utf8decodebyte (c.getD 1 0)).1) <<< 6) |||
      (utf8decodebyte (c.getD 2 0)).1) <<< 6) |||
      (utf8decodebyte (c.getD 3 0)).1) := rfl

/-- When the validation condition of utf8validate fires (scalar out of range
    for its length, or a UTF-16 surrogate), the codepoint is clamped to the
    replacement value. -/
theorem utf8validate_fst_clamped (u i : Nat)
    (h : (!BETWEEN u (utfmin i) (utfmax i) || BETWEEN u 0xD800 0xDFFF) = true) :
    (utf8validate u i).1 = UTF_INVALID := by
  simp [utf8validate, h]

/-- C7: a full-length UTF-8 sequence whose decoded scalar is outside the
    valid range for its encoded length, or inside the UTF-16 surrogate range
    0xD800-0xDFFF, decodes to the replacement codepoint 0xFFFD while the
    consumed count stays the full encoded length, so the scanner advances
    past the malformed sequence. -/
theorem utf8decode_invalid_scalar (c : List Nat) (clen len : Nat)
    (hlen0 : (utf8decodebyte (c.getD 0 0)).2 = len)
    (h1 : 1 ≤ len) (h4 : len ≤ 4) (hcl : len ≤ clen)
    (hcont : ∀ k, 1 ≤ k → k < len → (utf8decodebyte (c.getD k 0)).2 = 0)
    (hbad : (!BETWEEN (utf8raw c len) (utfmin len) (utfmax len)
        || BETWEEN (utf8raw c len) 0xD800 0xDFFF) = true) :
    utf8decode c clen = (UTF_INVALID, len) := by
  have hc0 : ¬ clen = 0 := by omega
  interval_cases len
  · rw [utf8decode, if_neg hc0, hlen0, if_neg (by decide)]
    rw [utf8decodeCont, dif_neg (by omega), if_neg (by omega)]
    have hv := utf8validate_fst_clamped (utf8raw c 1) 1 hbad
    rw [utf8raw_one] at hv
    rw [hv]
  · rw [utf8decode, if_neg hc0, hlen0, if_neg (by decide)]
    rw [utf8decodeCont, dif_pos (by omega : 1 < clen ∧ 1 < 2),
      if_neg (fun hx => hx (hcont 1 (by omega) (by omega)))]
    rw [utf8decodeCont, dif_neg (by omega), if_neg (by omega)]
    have hv := utf8validate_fst_clamped (utf8raw c 2) 2 hbad
    rw [utf8raw_two] at hv
    rw [hv]
  · rw [utf8decode, if_neg hc0, hlen0, if_neg (by decide)]
    rw [utf8decodeCont, dif_pos (by omega : 1 < clen ∧ 1 < 3),
      if_neg (fun hx => hx (hcont 1 (by omega) (by omega)))]
    rw [utf8decodeCont, dif_pos (by omega : 2 < clen ∧ 2 < 3),
      if_neg (fun hx => hx (hcont 2 (by omega) (by omega)))]
    rw [utf8decodeCont, dif_neg (by omega), if_neg (by omega)]
    have hv := utf8validate_fst_clamped (utf8raw c 3) 3 hbad
    rw [utf8raw_three] at hv
    rw [hv]
  · rw [utf8decode, if_neg hc0, hlen0, if_neg (by decide)]
    rw [utf8decodeCont, dif_pos (by omega : 1 < clen ∧ 1 < 4),
      if_neg (fun hx => hx (hcont 1 (by omega) (by omega)))]
    rw [utf8decodeCont, dif_pos (by omega : 2 < clen ∧ 2 < 4),
      if_neg (fun hx => hx (hcont 2 (by omega) (by omega)))]
    rw [utf8decodeCont, dif_pos (by omega : 3 < clen ∧ 3 < 4),
      if_neg (fun hx => hx (hcont 3 (by omega) (by omega)))]
    rw [utf8decodeCont, dif_neg (by omega), if_neg (by omega)]
    have hv := utf8validate_fst_clamped (utf8raw c 4) 4 hbad
    rw [utf8raw_four] at hv
    rw [hv]

/-- Witness for C7: the encoded surrogate 0xD800 (bytes ED A0 80) is a
    structurally complete 3-byte sequence whose scalar is in the surrogate
    range; it decodes to the replacement codepoint with consumed = 3. -/
theorem utf8decode_invalid_scalar_witness :
    (utf8decodebyte (([0xED, 0xA0, 0x80] : List Nat).getD 0 0)).2 = 3 ∧
    utf8decode [0xED, 0xA0, 0x80] 3 = (UTF_INVALID, 3) :=
  ⟨by decide,
    utf8decode_invalid_scalar [0xED, 0xA0, 0x80] 3 3 (by decide) (by decide)
      (by decide) (by decide)
      (by intro k h1 h3; interval_cases k <;> decide) (by decide)⟩


/-! ### Basic equations for the inner pass -/

theorem innerLoop_nil (env : DrwEnv) (fonts : List Fnt) (cur : Nat) (ce : Bool)
    (cp0 : Nat) : innerLoop env fonts cur ce cp0 [] = ⟨0, [], none, cp0, ce⟩ := by
  rw [innerLoop]

theorem innerLoop_zero (env : DrwEnv) (fonts : List Fnt) (cur : Nat) (ce : Bool)
    (cp0 b : Nat) (tail : List Nat) (hb : b = 0) :
    innerLoop env fonts cur ce cp0 (b :: tail) = ⟨0, b :: tail, none, cp0, ce⟩ := by
  rw [innerLoop, if_pos hb]

theorem innerLoop_consume (env : DrwEnv) (fonts : List Fnt) (cur : Nat)
    (ce : Bool) (cp0 b : Nat) (tail : List Nat) (hb : ¬ b = 0)
    (hscan : scanIdx env fonts ce (utf8decode (b :: tail) 4).1 = some cur) :
    innerLoop env fonts cur ce cp0 (b :: tail) =
      ⟨(utf8decode (b :: tail) 4).2 +
          (innerLoop env fonts cur false (utf8decode (b :: tail) 4).1
            ((b :: tail).drop (utf8decode (b :: tail) 4).2)).consumed,
        (innerLoop env fonts cur false (utf8decode (b :: tail) 4).1
          ((b :: tail).drop (utf8decode (b :: tail) 4).2)).rest,
        (innerLoop env fonts cur false (utf8decode (b :: tail) 4).1
          ((b :: tail).drop (utf8decode (b :: tail) 4).2)).nextfont,
        (innerLoop env fonts cur false (utf8decode (b :: tail) 4).1
          ((b :: tail).drop (utf8decode (b :: tail) 4).2)).cp,
        (innerLoop env fonts cur false (utf8decode (b :: tail) 4).1
          ((b :: tail).drop (utf8decode (b :: tail) 4).2)).ceOut⟩ := by
  rw [innerLoop, if_neg hb]
  simp only [hscan]
  rw [if_pos trivial]

theorem innerLoop_switch (env : DrwEnv) (fonts : List Fnt) (cur : Nat)
    (ce : Bool) (cp0 b : Nat) (tail : List Nat) (hb : ¬ b = 0) (i : Nat)
    (hscan : scanIdx env fonts ce (utf8decode (b :: tail) 4).1 = some i)
    (hne : ¬ i = cur) :
    innerLoop env fonts cur ce cp0 (b :: tail) =
      ⟨0, b :: tail, some i, (utf8decode (b :: tail) 4).1, true⟩ := by
  rw [innerLoop, if_neg hb]
  simp only [hscan, if_neg hne]

theorem innerLoop_nohit (env : DrwEnv) (fonts : List Fnt) (cur : Nat)
    (ce : Bool) (cp0 b : Nat) (tail : List Nat) (hb : ¬ b = 0)
    (hscan : scanIdx env fonts ce (utf8decode (b :: tail) 4).1 = none) :
    innerLoop env fonts cur ce cp0 (b :: tail) =
      ⟨0, b :: tail, none, (utf8decode (b :: tail) 4).1, false⟩ := by
  rw [innerLoop, if_neg hb]
  simp only [hscan]

theorem scanIdx_ce (env : DrwEnv) (fonts : List Fnt) (cp : Nat)
    (hne : fonts ≠ []) : scanIdx env fonts true cp = some 0 := by
  rw [scanIdx, if_pos rfl, if_neg]
  simp [List.isEmpty_iff, hne]

theorem scanIdx_noce (env : DrwEnv) (fonts : List Fnt) (cp : Nat) :
    scanIdx env fonts false cp = firstHit env fonts cp := by
  rw [scanIdx, if_neg]
  simp

/-- The rest of a pass is always the drop of its consumed count. -/
theorem innerLoop_rest_eq (env : DrwEnv) (fonts : List Fnt) (cur : Nat) :
    ∀ n text ce cp0, text.length ≤ n →
      (innerLoop env fonts cur ce cp0 text).rest =
        text.drop (innerLoop env fonts cur ce cp0 text).consumed := by
  intro n
  induction n with
  | zero =>
    intro text ce cp0 hn
    have : text = [] := by
      cases text with
      | nil => rfl
      | cons a l => simp at hn
    subst this
    rw [innerLoop_nil]
    rfl
  | succ n ih =>
    intro text ce cp0 hn
    cases text with
    | nil =>
      rw [innerLoop_nil]
      rfl
    | cons b tail =>
      by_cases hb : b = 0
      · rw [innerLoop_zero env fonts cur ce cp0 b tail hb]
        rfl
      · cases hscan : scanIdx env fonts ce (utf8decode (b :: tail) 4).1 with
        | none =>
          rw [innerLoop_nohit env fonts cur ce cp0 b tail hb hscan]
          rfl
        | some i =>
          by_cases hi : i = cur
          · rw [hi] at hscan
            rw [innerLoop_consume env fonts cur ce cp0 b tail hb hscan]
            have hlen : ((b :: tail).drop (utf8decode (b :: tail) 4).2).length ≤ n := by
              have h1 := (utf8decode_snd_bounds (b :: tail)).1
              simp only [List.length_drop, List.length_cons] at *
              omega
            have h2 := ih ((b :: tail).drop (utf8decode (b :: tail) 4).2) false
              (utf8decode (b :: tail) 4).1 hlen
            simp only [h2, List.drop_drop]
          · rw [innerLoop_switch env fonts cur ce cp0 b tail hb i hscan hi]
            rfl

/-! ### C10 and C9 -/

/-- C10: drw_text returns 0 immediately, laying out no text, when drw is
    null, the colour scheme is unset, the text pointer is null, or the font
    cache is empty — in render and measure mode alike, for any geometry. -/
theorem drw_text_guard_returns_zero (env : DrwEnv) (CAP : Nat)
    (drwOk schemeOk : Bool) (fonts : List Fnt) (x y : Int) (w h : Nat)
    (text : Option (List Nat))
    (hguard : drwOk = false ∨ schemeOk = false ∨ text = none ∨ fonts = []) :
    drw_text env CAP drwOk schemeOk fonts x y w h text =
      some (Except.ok (0, fonts, [])) := by
  rw [drw_text.eq_def]
  rcases hguard with h1 | h1 | h1 | h1
  · subst h1
    rw [if_pos (Or.inl (by simp))]
  · subst h1
    rw [if_pos (Or.inr (by simp))]
  · subst h1
    by_cases hd : ¬ (drwOk = true) ∨ ¬ (schemeOk = true)
    · rw [if_pos hd]
    · rw [if_neg hd]
  · subst h1
    by_cases hd : ¬ (drwOk = true) ∨ ¬ (schemeOk = true)
    · rw [if_pos hd]
    · rw [if_neg hd]
      cases text with
      | none => rfl
      | some t => simp

/-- Witness for C10: an empty font cache makes drw_text return 0 even in
    render mode with nonzero geometry. -/
theorem drw_text_guard_returns_zero_witness :
    drw_text ⟨fun _ _ => true, fun _ _ => 1, fun _ => none, fun _ => none,
        fun _ => none⟩ 4 true true [] 7 1 100 20 (some [65]) =
      some (Except.ok (0, [], [])) :=
  drw_text_guard_returns_zero _ 4 true true [] 7 1 100 20 (some [65])
    (Or.inr (Or.inr (Or.inr rfl)))

theorem drw_load_fonts_nil (env : DrwEnv) (CAP : Nat) (cache : List Fnt) :
    drw_load_fonts env CAP cache [] = (cache, false) := by
  rw [drw_load_fonts]

theorem drw_load_fonts_full (env : DrwEnv) (CAP : Nat) (cache : List Fnt)
    (s : Nat) (rest : List Nat) (hf : CAP ≤ cache.length) :
    drw_load_fonts env CAP cache (s :: rest) = (cache, true) := by
  rw [drw_load_fonts, if_pos hf]

theorem drw_load_fonts_step (env : DrwEnv) (CAP : Nat) (cache : List Fnt)
    (s : Nat) (rest : List Nat) (hf : ¬ CAP ≤ cache.length) (fh : Nat × Nat)
    (ho : env.openName s = some fh) :
    drw_load_fonts env CAP cache (s :: rest) =
      drw_load_fonts env CAP (cache ++ [⟨fh.1, true, fh.2⟩]) rest := by
  rw [drw_load_fonts, if_neg hf]
  simp only [ho]

theorem drw_load_fonts_skip (env : DrwEnv) (CAP : Nat) (cache : List Fnt)
    (s : Nat) (rest : List Nat) (hf : ¬ CAP ≤ cache.length)
    (ho : env.openName s = none) :
    drw_load_fonts env CAP cache (s :: rest) =
      drw_load_fonts env CAP cache rest := by
  rw [drw_load_fonts, if_neg hf]
  simp only [ho]

/-- Helper for C9: batch loading preserves the existing cache as a prefix,
    and when die is not hit the final cache is exactly the old cache
    followed by the successfully opened fonts, failures skipped; the cache
    never grows past the capacity. -/
theorem drw_load_fonts_spec (env : DrwEnv) (CAP : Nat) :
    ∀ (specs : List Nat) (cache : List Fnt),
      (drw_load_fonts env CAP cache specs).1.take cache.length = cache ∧
      ((drw_load_fonts env CAP cache specs).2 = false →
        (drw_load_fonts env CAP cache specs).1 = cache ++
          specs.filterMap (fun s =>
            (env.openName s).map (fun fh => (⟨fh.1, true, fh.2⟩ : Fnt)))) ∧
      (drw_load_fonts env CAP cache specs).1.length ≤ max cache.length CAP := by
  intro specs
  induction specs with
  | nil =>
    intro cache
    rw [drw_load_fonts_nil]
    exact ⟨by simp, fun _ => by simp, by simp⟩
  | cons s rest ih =>
    intro cache
    by_cases hf : CAP ≤ cache.length
    · rw [drw_load_fonts_full env CAP cache s rest hf]
      exact ⟨by simp, fun hc => absurd hc (by simp), by simp⟩
    · cases ho : env.openName s with
      | some fh =>
        rw [drw_load_fonts_step env CAP cache s rest hf fh ho]
        have IH := ih (cache ++ [⟨fh.1, true, fh.2⟩])
        have h1 := IH.1
        simp only [List.length_append, List.length_singleton] at h1
        refine ⟨?_, ?_, ?_⟩
        · have h5 : (drw_load_fonts env CAP (cache ++ [⟨fh.1, true, fh.2⟩]) rest).1.take
              cache.length = ((drw_load_fonts env CAP (cache ++ [⟨fh.1, true, fh.2⟩])
                rest).1.take (cache.length + 1)).take cache.length := by
            rw [List.take_take]
            congr 1
            omega
          rw [h5, h1]
          exact List.take_left cache [(⟨fh.1, true, fh.2⟩ : Fnt)]
        · intro h2
          rw [IH.2.1 h2]
          simp [List.filterMap_cons, ho, List.append_assoc]
        · have h4 := IH.2.2
          simp only [List.length_append, List.length_singleton] at h4
          omega
      | none =>
        rw [drw_load_fonts_skip env CAP cache s rest hf ho]
        have IH := ih cache
        refine ⟨IH.1, fun h2 => ?_, IH.2.2⟩
        rw [IH.2.1 h2]
        simp [List.filterMap_cons, ho]

/-- C9: drw_load_fonts skips individual load failures and continues with the
    remaining specs instead of aborting the batch (when die is not reached,
    the final cache is the old one plus exactly the successful loads in
    order), and an append beyond capacity is refused (die) without touching
    the cache entries already present: the original cache is always an
    unchanged prefix of the result. -/
theorem drw_load_fonts_skips_and_preserves (env : DrwEnv) (CAP : Nat)
    (specs : List Nat) (cache : List Fnt) :
    (drw_load_fonts env CAP cache specs).1.take cache.length = cache ∧
    ((drw_load_fonts env CAP cache specs).2 = false →
      (drw_load_fonts env CAP cache specs).1 = cache ++
        specs.filterMap (fun s =>
          (env.openName s).map (fun fh => (⟨fh.1, true, fh.2⟩ : Fnt)))) :=
  ⟨(drw_load_fonts_spec env CAP specs cache).1,
    (drw_load_fonts_spec env CAP specs cache).2.1⟩

/-- Witness for C9: one failing spec between two good ones is skipped; the
    primary entry survives unchanged. -/
theorem drw_load_fonts_skips_and_preserves_witness :
    (drw_load_fonts
        ⟨fun _ _ => true, fun _ _ => 1, fun _ => none, fun _ => none,
          fun s => if s = 1 then none else some (s, 10)⟩ 4
        ([⟨9, true, 2⟩] : List Fnt) [1, 2]).1.take 1 = ([⟨9, true, 2⟩] : List Fnt) ∧
    ((drw_load_fonts
        ⟨fun _ _ => true, fun _ _ => 1, fun _ => none, fun _ => none,
          fun s => if s = 1 then none else some (s, 10)⟩ 4
        ([⟨9, true, 2⟩] : List Fnt) [1, 2]).2 = false →
      (drw_load_fonts
        ⟨fun _ _ => true, fun _ _ => 1, fun _ => none, fun _ => none,
          fun s => if s = 1 then none else some (s, 10)⟩ 4
        ([⟨9, true, 2⟩] : List Fnt) [1, 2]).1 = ([⟨9, true, 2⟩] : List Fnt) ++
          ([1, 2] : List Nat).filterMap (fun s =>
            ((if s = 1 then none else some (s, 10)) : Option (Nat × Nat)).map
              (fun fh => (⟨fh.1, true, fh.2⟩ : Fnt)))) :=
  drw_load_fonts_skips_and_preserves _ 4 [1, 2] ([⟨9, true, 2⟩] : List Fnt)


/-! ### The emission and iteration steps, branch by branch -/

/-- emitRun only touches x, w and the trace: the cache, current font,
    charexists, codepoint and text pointer pass through unchanged. -/
theorem emitRun_fields (env : DrwEnv) (st : TextState) (c : Nat) :
    (emitRun env st c).fonts = st.fonts ∧ (emitRun env st c).cur = st.cur ∧
    (emitRun env st c).text = st.text ∧ (emitRun env st c).ce = st.ce ∧
    (emitRun env st c).cp = st.cp := by
  rw [emitRun]
  by_cases h : c = 0
  · rw [if_pos h]
    exact ⟨rfl, rfl, rfl, rfl, rfl⟩
  · rw [if_neg h]
    by_cases h2 : (shrinkRes env st c).1 ≠ 0
    · rw [if_pos h2]
      exact ⟨rfl, rfl, rfl, rfl, rfl⟩
    · rw [if_neg h2]
      exact ⟨rfl, rfl, rfl, rfl, rfl⟩

theorem textIter_end (env : DrwEnv) (CAP : Nat) (st : TextState)
    (h : atEnd (passRes env st).rest = true) :
    textIter env CAP st = Sum.inl (Except.ok
      ((emitRun env st (passRes env st).consumed).x,
       (emitRun env st (passRes env st).consumed).fonts,
       (emitRun env st (passRes env st).consumed).trace)) := by
  rw [textIter, if_pos h]

theorem textIter_switch (env : DrwEnv) (CAP : Nat) (st : TextState) (nf : Nat)
    (h : ¬ atEnd (passRes env st).rest = true)
    (hnf : (passRes env st).nextfont = some nf) :
    textIter env CAP st = Sum.inr { emitRun env st (passRes env st).consumed with
      text := (passRes env st).rest, cp := (passRes env st).cp,
      ce := false, cur := nf } := by
  rw [textIter, if_neg h]
  simp only [hnf]

theorem textIter_full (env : DrwEnv) (CAP : Nat) (st : TextState)
    (h : ¬ atEnd (passRes env st).rest = true)
    (hnf : (passRes env st).nextfont = none)
    (hful : CAP ≤ st.fonts.length) :
    textIter env CAP st = Sum.inr { emitRun env st (passRes env st).consumed with
      text := (passRes env st).rest, cp := (passRes env st).cp, ce := true } := by
  rw [textIter, if_neg h]
  simp only [hnf]
  rw [if_pos (by rw [(emitRun_fields env st (passRes env st).consumed).1]; exact hful)]

theorem textIter_die (env : DrwEnv) (CAP : Nat) (st : TextState)
    (h : ¬ atEnd (passRes env st).rest = true)
    (hnf : (passRes env st).nextfont = none)
    (hful : ¬ CAP ≤ st.fonts.length)
    (hpat : (st.fonts.headD noFnt).hasPattern = false) :
    textIter env CAP st = Sum.inl (Except.error ()) := by
  rw [textIter, if_neg h]
  simp only [hnf]
  rw [if_neg (by rw [(emitRun_fields env st (passRes env st).consumed).1]; exact hful)]
  rw [if_pos (by rw [(emitRun_fields env st (passRes env st).consumed).1, hpat]; exact Bool.false_ne_true)]

theorem textIter_matchnone (env : DrwEnv) (CAP : Nat) (st : TextState)
    (h : ¬ atEnd (passRes env st).rest = true)
    (hnf : (passRes env st).nextfont = none)
    (hful : ¬ CAP ≤ st.fonts.length)
    (hpat : (st.fonts.headD noFnt).hasPattern = true)
    (hm : env.matchFont (passRes env st).cp = none) :
    textIter env CAP st = Sum.inr { emitRun env st (passRes env st).consumed with
      text := (passRes env st).rest, cp := (passRes env st).cp, ce := true } := by
  rw [textIter, if_neg h]
  simp only [hnf]
  rw [if_neg (by rw [(emitRun_fields env st (passRes env st).consumed).1]; exact hful)]
  rw [if_neg (fun hh => hh
    (by rw [(emitRun_fields env st (passRes env st).consumed).1]; exact hpat))]
  simp only [hm]

theorem textIter_opennone (env : DrwEnv) (CAP : Nat) (st : TextState)
    (h : ¬ atEnd (passRes env st).rest = true)
    (hnf : (passRes env st).nextfont = none)
    (hful : ¬ CAP ≤ st.fonts.length)
    (hpat : (st.fonts.headD noFnt).hasPattern = true) (pid : Nat)
    (hm : env.matchFont (passRes env st).cp = some pid)
    (ho : env.openPattern pid = none) :
    textIter env CAP st = Sum.inr { emitRun env st (passRes env st).consumed with
      cur := 0, text := (passRes env st).rest, cp := (passRes env st).cp,
      ce := true } := by
  rw [textIter, if_neg h]
  simp only [hnf]
  rw [if_neg (by rw [(emitRun_fields env st (passRes env st).consumed).1]; exact hful)]
  rw [if_neg (fun hh => hh
    (by rw [(emitRun_fields env st (passRes env st).consumed).1]; exact hpat))]
  simp only [hm, ho]

theorem textIter_noglyph (env : DrwEnv) (CAP : Nat) (st : TextState)
    (h : ¬ atEnd (passRes env st).rest = true)
    (hnf : (passRes env st).nextfont = none)
    (hful : ¬ CAP ≤ st.fonts.length)
    (hpat : (st.fonts.headD noFnt).hasPattern = true) (pid : Nat)
    (hm : env.matchFont (passRes env st).cp = some pid) (fh : Nat × Nat)
    (ho : env.openPattern pid = some fh)
    (hg : env.glyphExists fh.1 (passRes env st).cp = false) :
    textIter env CAP st = Sum.inr { emitRun env st (passRes env st).consumed with
      cur := 0, text := (passRes env st).rest, cp := (passRes env st).cp,
      ce := true } := by
  rw [textIter, if_neg h]
  simp only [hnf]
  rw [if_neg (by rw [(emitRun_fields env st (passRes env st).consumed).1]; exact hful)]
  rw [if_neg (fun hh => hh
    (by rw [(emitRun_fields env st (passRes env st).consumed).1]; exact hpat))]
  simp only [hm, ho]
  rw [if_neg (by rw [hg]; exact Bool.false_ne_true)]

theorem textIter_append (env : DrwEnv) (CAP : Nat) (st : TextState)
    (h : ¬ atEnd (passRes env st).rest = true)
    (hnf : (passRes env st).nextfont = none)
    (hful : ¬ CAP ≤ st.fonts.length)
    (hpat : (st.fonts.headD noFnt).hasPattern = true) (pid : Nat)
    (hm : env.matchFont (passRes env st).cp = some pid) (fh : Nat × Nat)
    (ho : env.openPattern pid = some fh)
    (hg : env.glyphExists fh.1 (passRes env st).cp = true) :
    textIter env CAP st = Sum.inr { emitRun env st (passRes env st).consumed with
      fonts := (emitRun env st (passRes env st).consumed).fonts ++
        [⟨fh.1, false, fh.2⟩],
      cur := (emitRun env st (passRes env st).consumed).fonts.length,
      text := (passRes env st).rest, cp := (passRes env st).cp, ce := true } := by
  rw [textIter, if_neg h]
  simp only [hnf]
  rw [if_neg (by rw [(emitRun_fields env st (passRes env st).consumed).1]; exact hful)]
  rw [if_neg (fun hh => hh
    (by rw [(emitRun_fields env st (passRes env st).consumed).1]; exact hpat))]
  simp only [hm, ho]
  rw [if_pos hg]

/-- The phi rank never exceeds 4. -/
theorem phiAux_le_four (env : DrwEnv) (fonts : List Fnt) (cur : Nat)
    (ce : Bool) (l : List Nat) : phiAux env fonts cur ce l ≤ 4 := by
  cases l with
  | nil =>
    rw [phiAux]
    omega
  | cons b tail =>
    rw [phiAux]
    by_cases hb : b = 0
    · rw [if_pos hb]
      omega
    · rw [if_neg hb]
      by_cases hc : ce = true
      · rw [if_pos hc]
        by_cases h0 : cur = 0
        · rw [if_pos h0]; omega
        · rw [if_neg h0]; omega
      · rw [if_neg hc]
        cases firstHit env fonts (utf8decode (b :: tail) 4).1 with
        | some m =>
          by_cases hm : m = cur
          · simp only [if_pos hm]
            omega
          · simp only [if_neg hm]
            omega
        | none =>
          by_cases h0 : cur = 0
          · simp only [if_pos h0]
            omega
          · simp only [if_neg h0]
            omega

theorem phi_le_four (env : DrwEnv) (st : TextState) : phi env st ≤ 4 := by
  rw [phi]
  exact phiAux_le_four env st.fonts st.cur st.ce st.text

/-- Every continuing iteration of the outer loop: the next state reads the
    pass result through the emission step, and the cache either stays or
    grows by one pattern-loaded font while below capacity. -/
theorem textIter_inr_spec (env : DrwEnv) (CAP : Nat) (st st2 : TextState)
    (h : textIter env CAP st = Sum.inr st2) :
    st2.text = (passRes env st).rest ∧
    st2.cp = (passRes env st).cp ∧
    st2.x = (emitRun env st (passRes env st).consumed).x ∧
    st2.w = (emitRun env st (passRes env st).consumed).w ∧
    st2.trace = (emitRun env st (passRes env st).consumed).trace ∧
    ((∃ nf, (passRes env st).nextfont = some nf ∧ st2.ce = false ∧
        st2.cur = nf ∧ st2.fonts = st.fonts) ∨
      ((passRes env st).nextfont = none ∧ st2.ce = true ∧
        ((st2.cur = st.cur ∧ st2.fonts = st.fonts) ∨
         (st2.cur = 0 ∧ st2.fonts = st.fonts) ∨
         (st.fonts.length < CAP ∧ st2.cur = st.fonts.length ∧
           ∃ fh : Nat × Nat, st2.fonts = st.fonts ++ [⟨fh.1, false, fh.2⟩])))) := by
  by_cases hend : atEnd (passRes env st).rest = true
  · rw [textIter_end env CAP st hend] at h
    exact absurd h (by simp)
  cases hnf : (passRes env st).nextfont with
  | some nf =>
    rw [textIter_switch env CAP st nf hend hnf] at h
    have h2 := Sum.inr.inj h
    subst h2
    exact ⟨rfl, rfl, rfl, rfl, rfl,
      Or.inl ⟨nf, rfl, rfl, rfl, (emitRun_fields env st (passRes env st).consumed).1⟩⟩
  | none =>
    by_cases hful : CAP ≤ st.fonts.length
    · rw [textIter_full env CAP st hend hnf hful] at h
      have h2 := Sum.inr.inj h
      subst h2
      exact ⟨rfl, rfl, rfl, rfl, rfl,
        Or.inr ⟨rfl, rfl, Or.inl ⟨(emitRun_fields env st (passRes env st).consumed).2.1,
          (emitRun_fields env st (passRes env st).consumed).1⟩⟩⟩
    · cases hb : (st.fonts.headD noFnt).hasPattern with
      | false =>
        rw [textIter_die env CAP st hend hnf hful hb] at h
        exact absurd h (by simp)
      | true =>
        cases hm : env.matchFont (passRes env st).cp with
        | none =>
          rw [textIter_matchnone env CAP st hend hnf hful hb hm] at h
          have h2 := Sum.inr.inj h
          subst h2
          exact ⟨rfl, rfl, rfl, rfl, rfl,
            Or.inr ⟨rfl, rfl, Or.inl ⟨(emitRun_fields env st (passRes env st).consumed).2.1,
              (emitRun_fields env st (passRes env st).consumed).1⟩⟩⟩
        | some pid =>
          cases ho : env.openPattern pid with
          | none =>
            rw [textIter_opennone env CAP st hend hnf hful hb pid hm ho] at h
            have h2 := Sum.inr.inj h
            subst h2
            exact ⟨rfl, rfl, rfl, rfl, rfl,
              Or.inr ⟨rfl, rfl, Or.inr (Or.inl ⟨rfl,
                (emitRun_fields env st (passRes env st).consumed).1⟩)⟩⟩
          | some fh =>
            cases hg : env.glyphExists fh.1 (passRes env st).cp with
            | false =>
              rw [textIter_noglyph env CAP st hend hnf hful hb pid hm fh ho hg] at h
              have h2 := Sum.inr.inj h
              subst h2
              exact ⟨rfl, rfl, rfl, rfl, rfl,
                Or.inr ⟨rfl, rfl, Or.inr (Or.inl ⟨rfl,
                  (emitRun_fields env st (passRes env st).consumed).1⟩)⟩⟩
            | true =>
              rw [textIter_append env CAP st hend hnf hful hb pid hm fh ho hg] at h
              have h2 := Sum.inr.inj h
              subst h2
              refine ⟨rfl, rfl, rfl, rfl, rfl,
                Or.inr ⟨rfl, rfl, Or.inr (Or.inr ⟨by omega, ?_, fh, ?_⟩)⟩⟩
              · show (emitRun env st (passRes env st).consumed).fonts.length =
                  st.fonts.length
                rw [(emitRun_fields env st (passRes env st).consumed).1]
              · show (emitRun env st (passRes env st).consumed).fonts ++
                  [⟨fh.1, false, fh.2⟩] = st.fonts ++ [⟨fh.1, false, fh.2⟩]
                rw [(emitRun_fields env st (passRes env st).consumed).1]

theorem phiAux_true_eval (env : DrwEnv) (fonts : List Fnt) (cur : Nat)
    (b : Nat) (tail : List Nat) (hb : ¬ b = 0) :
    phiAux env fonts cur true (b :: tail) = if cur = 0 then 0 else 3 := by
  rw [phiAux, if_neg hb, if_pos rfl]

theorem phiAux_false_hit (env : DrwEnv) (fonts : List Fnt) (cur : Nat)
    (b : Nat) (tail : List Nat) (m : Nat) (hb : ¬ b = 0)
    (hhit : firstHit env fonts (utf8decode (b :: tail) 4).1 = some m) :
    phiAux env fonts cur false (b :: tail) = if m = cur then 0 else 1 := by
  rw [phiAux, if_neg hb, if_neg Bool.false_ne_true]
  simp only [hhit]

theorem phiAux_false_nohit (env : DrwEnv) (fonts : List Fnt) (cur : Nat)
    (b : Nat) (tail : List Nat) (hb : ¬ b = 0)
    (hhit : firstHit env fonts (utf8decode (b :: tail) 4).1 = none) :
    phiAux env fonts cur false (b :: tail) = if cur = 0 then 2 else 4 := by
  rw [phiAux, if_neg hb, if_neg Bool.false_ne_true]
  simp only [hhit]

/-- The termination measure strictly decreases on every continuing
    iteration of drw_text's outer loop: consuming iterations shorten the
    text, appending iterations spend a cache slot, and the remaining
    non-consuming iterations walk down the phi rank of the bounded state
    machine around charexists and curfont. -/
theorem textIter_measure_lt (env : DrwEnv) (CAP : Nat) (st st2 : TextState)
    (hfne : st.fonts ≠ []) (h : textIter env CAP st = Sum.inr st2) :
    measureM env CAP st2 < measureM env CAP st := by
  by_cases hend : atEnd (passRes env st).rest = true
  · rw [textIter_end env CAP st hend] at h
    exact absurd h (by simp)
  obtain ⟨htext, hcp, hx, hw, htr, hbr⟩ := textIter_inr_spec env CAP st st2 h
  have hrest : (passRes env st).rest = st.text.drop (passRes env st).consumed := by
    rw [passRes]
    exact innerLoop_rest_eq env st.fonts st.cur st.text.length st.text st.ce
      st.cp (le_refl _)
  by_cases hc : (passRes env st).consumed = 0
  · have hRrest : (passRes env st).rest = st.text := by
      rw [hrest, hc, List.drop_zero]
    obtain ⟨b, tail, heq⟩ : ∃ b t, st.text = b :: t := by
      cases hq : st.text with
      | nil =>
        rw [hRrest, hq] at hend
        exact absurd rfl hend
      | cons b t => exact ⟨b, t, rfl⟩
    have hb : ¬ b = 0 := by
      rw [hRrest, heq] at hend
      simpa [atEnd] using hend
    have hpass : passRes env st =
        innerLoop env st.fonts st.cur st.ce st.cp (b :: tail) := by
      rw [passRes, heq]
    have hst2text : st2.text = b :: tail := by rw [htext, hRrest, heq]
    rw [measureM, measureM, phi, phi, hst2text, heq]
    cases hce : st.ce with
    | true =>
      have hscan0 := scanIdx_ce env st.fonts (utf8decode (b :: tail) 4).1 hfne
      by_cases hcur : st.cur = 0
      · exfalso
        have hs2 : scanIdx env st.fonts st.ce (utf8decode (b :: tail) 4).1 =
            some st.cur := by
          rw [hce, hcur]
          exact hscan0
        have hcons := innerLoop_consume env st.fonts st.cur st.ce st.cp b tail hb hs2
        have h9 : (innerLoop env st.fonts st.cur st.ce st.cp (b :: tail)).consumed =
            (utf8decode (b :: tail) 4).2 +
            (innerLoop env st.fonts st.cur false (utf8decode (b :: tail) 4).1
              ((b :: tail).drop (utf8decode (b :: tail) 4).2)).consumed := by
          rw [hcons]
        have hd := (utf8decode_snd_bounds (b :: tail)).1
        rw [hpass] at hc
        omega
      · have hs2 : scanIdx env st.fonts st.ce (utf8decode (b :: tail) 4).1 =
            some 0 := by
          rw [hce]
          exact hscan0
        have hsw := innerLoop_switch env st.fonts st.cur st.ce st.cp b tail hb 0
          hs2 (fun hh => hcur hh.symm)
        have hnf9 : (passRes env st).nextfont = some 0 := by rw [hpass, hsw]
        rcases hbr with ⟨nf, hnf, hce2, hcur2, hfonts2⟩ | ⟨hnf, -, -⟩
        · have hnf0 : nf = 0 := by
            rw [hnf9] at hnf
            exact (Option.some.inj hnf).symm
          subst hnf0
          rw [hfonts2, hce2, hcur2]
          have hphi1 : phiAux env st.fonts st.cur true (b :: tail) = 3 := by
            rw [phiAux_true_eval env st.fonts st.cur b tail hb, if_neg hcur]
          have hphi2 : phiAux env st.fonts 0 false (b :: tail) ≤ 2 := by
            cases hhit : firstHit env st.fonts (utf8decode (b :: tail) 4).1 with
            | some m =>
              rw [phiAux_false_hit env st.fonts 0 b tail m hb hhit]
              by_cases hm0 : m = 0
              · rw [if_pos hm0]
                omega
              · rw [if_neg hm0]
                omega
            | none =>
              rw [phiAux_false_nohit env st.fonts 0 b tail hb hhit, if_pos rfl]
          omega
        · rw [hnf9] at hnf
          exact absurd hnf (by simp)
    | false =>
      cases hhit : firstHit env st.fonts (utf8decode (b :: tail) 4).1 with
      | some m =>
        have hs2 : scanIdx env st.fonts st.ce (utf8decode (b :: tail) 4).1 =
            some m := by
          rw [hce, scanIdx_noce]
          exact hhit
        by_cases hmc : m = st.cur
        · exfalso
          rw [hmc] at hs2
          have hcons := innerLoop_consume env st.fonts st.cur st.ce st.cp b tail hb hs2
          have h9 : (innerLoop env st.fonts st.cur st.ce st.cp (b :: tail)).consumed =
              (utf8decode (b :: tail) 4).2 +
              (innerLoop env st.fonts st.cur false (utf8decode (b :: tail) 4).1
                ((b :: tail).drop (utf8decode (b :: tail) 4).2)).consumed := by
            rw [hcons]
          have hd := (utf8decode_snd_bounds (b :: tail)).1
          rw [hpass] at hc
          omega
        · have hsw := innerLoop_switch env st.fonts st.cur st.ce st.cp b tail hb m
            hs2 hmc
          have hnf9 : (passRes env st).nextfont = some m := by rw [hpass, hsw]
          rcases hbr with ⟨nf, hnf, hce2, hcur2, hfonts2⟩ | ⟨hnf, -, -⟩
          · have hnfm : m = nf := by
              rw [hnf9] at hnf
              exact Option.some.inj hnf
            subst hnfm
            rw [hfonts2, hce2, hcur2]
            have hphi1 : phiAux env st.fonts st.cur false (b :: tail) = 1 := by
              rw [phiAux_false_hit env st.fonts st.cur b tail m hb hhit, if_neg hmc]
            have hphi2 : phiAux env st.fonts m false (b :: tail) = 0 := by
              rw [phiAux_false_hit env st.fonts m b tail m hb hhit, if_pos rfl]
            omega
          · rw [hnf9] at hnf
            exact absurd hnf (by simp)
      | none =>
        have hs2 : scanIdx env st.fonts st.ce (utf8decode (b :: tail) 4).1 =
            none := by
          rw [hce, scanIdx_noce]
          exact hhit
        have hnh := innerLoop_nohit env st.fonts st.cur st.ce st.cp b tail hb hs2
        have hnf9 : (passRes env st).nextfont = none := by rw [hpass, hnh]
        rcases hbr with ⟨nf, hnf, -, -, -⟩ | ⟨-, hce2, hsub⟩
        · rw [hnf9] at hnf
          exact absurd hnf (by simp)
        · have hphi1 : phiAux env st.fonts st.cur false (b :: tail) =
              if st.cur = 0 then 2 else 4 :=
            phiAux_false_nohit env st.fonts st.cur b tail hb hhit
          rcases hsub with ⟨hcur2, hfonts2⟩ | ⟨hcur2, hfonts2⟩ | ⟨hlt, hcur2, fh, hfonts2⟩
          · rw [hfonts2, hce2, hcur2]
            rw [phiAux_true_eval env st.fonts st.cur b tail hb, hphi1]
            by_cases h0 : st.cur = 0
            · rw [if_pos h0, if_pos h0]
              omega
            · rw [if_neg h0, if_neg h0]
              omega
          · rw [hfonts2, hce2, hcur2]
            rw [phiAux_true_eval env st.fonts 0 b tail hb, if_pos rfl, hphi1]
            by_cases h0 : st.cur = 0
            · rw [if_pos h0]
              omega
            · rw [if_neg h0]
              omega
          · rw [hfonts2, hce2, hcur2]
            have hlen2 : (st.fonts ++ [(⟨fh.1, false, fh.2⟩ : Fnt)]).length =
                st.fonts.length + 1 := by simp
            have hp2 := phiAux_le_four env (st.fonts ++ [(⟨fh.1, false, fh.2⟩ : Fnt)])
              st.fonts.length true (b :: tail)
            omega
  · have hne : st.text ≠ [] := by
      intro he
      apply hc
      rw [passRes, he, innerLoop_nil]
    have hlen1 : 1 ≤ st.text.length := by
      cases hq : st.text with
      | nil => exact absurd hq hne
      | cons a l => simp
    have hlen2 : st2.text.length = st.text.length - (passRes env st).consumed := by
      rw [htext, hrest, List.length_drop]
    have hslack : CAP - st2.fonts.length ≤ CAP - st.fonts.length := by
      rcases hbr with ⟨-, -, -, -, hfonts2⟩ | ⟨-, -, hsub⟩
      · rw [hfonts2]
      · rcases hsub with ⟨-, hfonts2⟩ | ⟨-, hfonts2⟩ | ⟨-, -, fh, hfonts2⟩
        · rw [hfonts2]
        · rw [hfonts2]
        · rw [hfonts2]
          simp only [List.length_append, List.length_singleton]
          omega
    have hp2 := phi_le_four env st2
    rw [measureM, measureM]
    omega

/-- Appending to a nonempty list keeps its head. -/
theorem headD_append_ne_nil (l : List Fnt) (f d : Fnt) (h : l ≠ []) :
    (l ++ [f]).headD d = l.headD d := by
  cases l with
  | nil => exact absurd rfl h
  | cons a t => rfl

/-- A continuing iteration keeps the cache nonempty and keeps its primary
    entry. -/
theorem textIter_inr_pres (env : DrwEnv) (CAP : Nat) (st st2 : TextState)
    (h : textIter env CAP st = Sum.inr st2) (hfne : st.fonts ≠ []) :
    st2.fonts ≠ [] ∧ st2.fonts.headD noFnt = st.fonts.headD noFnt := by
  obtain ⟨-, -, -, -, -, hbr⟩ := textIter_inr_spec env CAP st st2 h
  have hcase : st2.fonts = st.fonts ∨
      ∃ fh : Nat × Nat, st2.fonts = st.fonts ++ [⟨fh.1, false, fh.2⟩] := by
    rcases hbr with ⟨-, -, -, -, hfonts2⟩ | ⟨-, -, hsub⟩
    · exact Or.inl hfonts2
    · rcases hsub with ⟨-, hfonts2⟩ | ⟨-, hfonts2⟩ | ⟨-, -, fh, hfonts2⟩
      · exact Or.inl hfonts2
      · exact Or.inl hfonts2
      · exact Or.inr ⟨fh, hfonts2⟩
  rcases hcase with hfonts2 | ⟨fh, hfonts2⟩
  · rw [hfonts2]
    exact ⟨hfne, rfl⟩
  · rw [hfonts2]
    constructor
    · simp
    · exact headD_append_ne_nil st.fonts _ noFnt hfne

/-- The only way the outer loop returns through Sum.inl with a value is the
    end-of-text break, which hands back the emitted cursor, cache and trace;
    the die path is the only error. -/
theorem textIter_inl_ok_spec (env : DrwEnv) (CAP : Nat) (st : TextState)
    (x : Int) (f : List Fnt) (tr : List TraceEntry)
    (h : textIter env CAP st = Sum.inl (Except.ok (x, f, tr))) :
    atEnd (passRes env st).rest = true ∧
    x = (emitRun env st (passRes env st).consumed).x ∧
    f = st.fonts ∧
    tr = (emitRun env st (passRes env st).consumed).trace := by
  by_cases hend : atEnd (passRes env st).rest = true
  · rw [textIter_end env CAP st hend] at h
    have h2 := Sum.inl.inj h
    have h3 := Except.ok.inj h2
    refine ⟨hend, ?_, ?_, ?_⟩
    · exact congrArg Prod.fst h3.symm
    · have := congrArg (fun p => p.2.1) h3
      simp only at this
      rw [← this, (emitRun_fields env st (passRes env st).consumed).1]
    · have := congrArg (fun p => p.2.2) h3
      simp only at this
      exact this.symm
  · cases hnf : (passRes env st).nextfont with
    | some nf =>
      rw [textIter_switch env CAP st nf hend hnf] at h
      exact absurd h (by simp)
    | none =>
      by_cases hful : CAP ≤ st.fonts.length
      · rw [textIter_full env CAP st hend hnf hful] at h
        exact absurd h (by simp)
      · cases hb : (st.fonts.headD noFnt).hasPattern with
        | false =>
          rw [textIter_die env CAP st hend hnf hful hb] at h
          have h2 := Sum.inl.inj h
          exact absurd h2 (by simp)
        | true =>
          cases hm : env.matchFont (passRes env st).cp with
          | none =>
            rw [textIter_matchnone env CAP st hend hnf hful hb hm] at h
            exact absurd h (by simp)
          | some pid =>
            cases ho : env.openPattern pid with
            | none =>
              rw [textIter_opennone env CAP st hend hnf hful hb pid hm ho] at h
              exact absurd h (by simp)
            | some fh =>
              cases hg : env.glyphExists fh.1 (passRes env st).cp with
              | false =>
                rw [textIter_noglyph env CAP st hend hnf hful hb pid hm fh ho hg] at h
                exact absurd h (by simp)
              | true =>
                rw [textIter_append env CAP st hend hnf hful hb pid hm fh ho hg] at h
                exact absurd h (by simp)

/-- With a primary font that carries a pattern, the die path is unreachable:
    an inl result is always Except.ok. -/
theorem textIter_inl_ok (env : DrwEnv) (CAP : Nat) (st : TextState)
    (hpat : (st.fonts.headD noFnt).hasPattern = true)
    (r : Except Unit (Int × List Fnt × List TraceEntry))
    (h : textIter env CAP st = Sum.inl r) :
    ∃ x f tr, r = Except.ok (x, f, tr) := by
  by_cases hend : atEnd (passRes env st).rest = true
  · rw [textIter_end env CAP st hend] at h
    have h2 := Sum.inl.inj h
    exact ⟨_, _, _, h2.symm⟩
  · cases hnf : (passRes env st).nextfont with
    | some nf =>
      rw [textIter_switch env CAP st nf hend hnf] at h
      exact absurd h (by simp)
    | none =>
      by_cases hful : CAP ≤ st.fonts.length
      · rw [textIter_full env CAP st hend hnf hful] at h
        exact absurd h (by simp)
      · cases hb : (st.fonts.headD noFnt).hasPattern with
        | false =>
          rw [hb] at hpat
          exact absurd hpat Bool.false_ne_true
        | true =>
          cases hm : env.matchFont (passRes env st).cp with
          | none =>
            rw [textIter_matchnone env CAP st hend hnf hful hb hm] at h
            exact absurd h (by simp)
          | some pid =>
            cases ho : env.openPattern pid with
            | none =>
              rw [textIter_opennone env CAP st hend hnf hful hb pid hm ho] at h
              exact absurd h (by simp)
            | some fh =>
              cases hg : env.glyphExists fh.1 (passRes env st).cp with
              | false =>
                rw [textIter_noglyph env CAP st hend hnf hful hb pid hm fh ho hg] at h
                exact absurd h (by simp)
              | true =>
                rw [textIter_append env CAP st hend hnf hful hb pid hm fh ho hg] at h
                exact absurd h (by simp)

/-- The outer loop terminates within the measure bound and, when the primary
    font carries a pattern, without dying. -/
theorem textLoop_ok (env : DrwEnv) (CAP : Nat) :
    ∀ (fuel : Nat) (st : TextState), st.fonts ≠ [] →
      (st.fonts.headD noFnt).hasPattern = true →
      measureM env CAP st < fuel →
      ∃ x f tr, textLoop env CAP fuel st = some (Except.ok (x, f, tr)) := by
  intro fuel
  induction fuel with
  | zero =>
    intro st hfne hpat hm
    omega
  | succ fuel ih =>
    intro st hfne hpat hm
    rw [textLoop]
    cases hti : textIter env CAP st with
    | inl r =>
      obtain ⟨x, f, tr, hr⟩ := textIter_inl_ok env CAP st hpat r hti
      exact ⟨x, f, tr, by rw [hr]⟩
    | inr st2 =>
      have hlt := textIter_measure_lt env CAP st st2 hfne hti
      have hpres := textIter_inr_pres env CAP st st2 hti hfne
      exact ih st2 hpres.1 (by rw [hpres.2]; exact hpat) (by omega)

/-- C1: for every input text and in both render and measure-only mode,
    drw_text terminates and returns a final cursor x position (with the
    final cache and the emitted runs).  Malformed UTF-8 and every
    glyph-resolution failure (uncovered codepoint, failed fallback match,
    failed open, lying match, cache at capacity) are absorbed by the loop,
    which always makes forward progress: the only precondition is the
    configuration invariant that the primary font was loaded from a font
    string (else the C code calls die).  The early-return guards also
    terminate with a cursor of 0. -/
theorem drw_text_terminates (env : DrwEnv) (CAP : Nat) (drwOk schemeOk : Bool)
    (fonts : List Fnt) (x y : Int) (w h : Nat) (text : Option (List Nat))
    (hfne : fonts ≠ []) (hpat : (fonts.headD noFnt).hasPattern = true) :
    ∃ xf ff tr, drw_text env CAP drwOk schemeOk fonts x y w h text =
      some (Except.ok (xf, ff, tr)) := by
  rw [drw_text.eq_def]
  by_cases hd : ¬ (drwOk = true) ∨ ¬ (schemeOk = true)
  · rw [if_pos hd]
    exact ⟨0, fonts, [], rfl⟩
  · rw [if_neg hd]
    cases text with
    | none => exact ⟨0, fonts, [], rfl⟩
    | some t =>
      have hred : (match some t with
          | none => some (Except.ok ((0 : Int), fonts, ([] : List TraceEntry)))
          | some t =>
            if fonts.length = 0 then
              some (Except.ok ((0 : Int), fonts, ([] : List TraceEntry)))
            else textLoop env CAP (drwTextFuel CAP t)
              ⟨fonts, 0, false, 0, t, x,
                if x = 0 ∧ y = 0 ∧ w = 0 ∧ h = 0 then 4294967295 else w, []⟩) =
          (if fonts.length = 0 then
              some (Except.ok ((0 : Int), fonts, ([] : List TraceEntry)))
            else textLoop env CAP (drwTextFuel CAP t)
              ⟨fonts, 0, false, 0, t, x,
                if x = 0 ∧ y = 0 ∧ w = 0 ∧ h = 0 then 4294967295 else w, []⟩) := rfl
      rw [hred]
      by_cases hf0 : fonts.length = 0
      · rw [if_pos hf0]
        exact ⟨0, fonts, [], rfl⟩
      · rw [if_neg hf0]
        apply textLoop_ok env CAP (drwTextFuel CAP t)
          ⟨fonts, 0, false, 0, t, x,
            if x = 0 ∧ y = 0 ∧ w = 0 ∧ h = 0 then 4294967295 else w, []⟩
          hfne hpat
        have hmeq : measureM env CAP ⟨fonts, 0, false, 0, t, x,
            if x = 0 ∧ y = 0 ∧ w = 0 ∧ h = 0 then 4294967295 else w, []⟩ =
            5 * t.length + 5 * (CAP - fonts.length) + phi env ⟨fonts, 0, false, 0,
              t, x, if x = 0 ∧ y = 0 ∧ w = 0 ∧ h = 0 then 4294967295 else w, []⟩ := by
          rw [measureM]
        rw [hmeq, drwTextFuel]
        have hb := phi_le_four env ⟨fonts, 0, false, 0, t, x,
          if x = 0 ∧ y = 0 ∧ w = 0 ∧ h = 0 then 4294967295 else w, []⟩
        have hs : CAP - fonts.length ≤ CAP := by omega
        omega

/-- Witness for C1: a text starting with a malformed lead byte, on a
    one-font cache that covers nothing, with matching always failing, still
    terminates with a cursor. -/
theorem drw_text_terminates_witness :
    ∃ xf ff tr, drw_text
      ⟨fun _ _ => false, fun _ s => s.length, fun _ => none, fun _ => none,
        fun _ => none⟩ 1 true true [⟨0, true, 1⟩] 0 0 0 0
      (some [255, 65, 0xE2, 0x82]) = some (Except.ok (xf, ff, tr)) :=
  drw_text_terminates _ 1 true true [⟨0, true, 1⟩] 0 0 0 0
    (some [255, 65, 0xE2, 0x82]) (by simp) (by decide)

/-- Along the outer loop the cache length never exceeds the capacity, and a
    cache already at capacity is returned unchanged (fallback acquisition is
    skipped). -/
theorem textLoop_len (env : DrwEnv) (CAP : Nat) :
    ∀ (fuel : Nat) (st : TextState) (x : Int) (f : List Fnt)
      (tr : List TraceEntry),
      textLoop env CAP fuel st = some (Except.ok (x, f, tr)) →
      (st.fonts.length ≤ CAP → f.length ≤ CAP) ∧
      (CAP ≤ st.fonts.length → f = st.fonts) := by
  intro fuel
  induction fuel with
  | zero =>
    intro st x f tr hl
    rw [textLoop] at hl
    exact absurd hl (by simp)
  | succ fuel ih =>
    intro st x f tr hl
    rw [textLoop] at hl
    cases hti : textIter env CAP st with
    | inl r =>
      simp only [hti] at hl
      have hr : r = Except.ok (x, f, tr) := Option.some.inj hl
      rw [hr] at hti
      have hspec := textIter_inl_ok_spec env CAP st x f tr hti
      constructor
      · intro hle
        rw [hspec.2.2.1]
        exact hle
      · intro _
        exact hspec.2.2.1
    | inr st2 =>
      simp only [hti] at hl
      have IH := ih st2 x f tr hl
      obtain ⟨-, -, -, -, -, hbr⟩ := textIter_inr_spec env CAP st st2 hti
      have hcase : st2.fonts = st.fonts ∨
          (st.fonts.length < CAP ∧ st2.fonts.length = st.fonts.length + 1) := by
        rcases hbr with ⟨-, -, -, -, hfonts2⟩ | ⟨-, -, hsub⟩
        · exact Or.inl hfonts2
        · rcases hsub with ⟨-, hfonts2⟩ | ⟨-, hfonts2⟩ | ⟨hlt, -, fh, hfonts2⟩
          · exact Or.inl hfonts2
          · exact Or.inl hfonts2
          · refine Or.inr ⟨hlt, ?_⟩
            rw [hfonts2]
            simp
      constructor
      · intro hle
        rcases hcase with hfonts2 | ⟨hlt, hlen2⟩
        · exact IH.1 (by rw [hfonts2]; exact hle)
        · exact IH.1 (by omega)
      · intro hge
        rcases hcase with hfonts2 | ⟨hlt, hlen2⟩
        · rw [IH.2 (by rw [hfonts2]; exact hge), hfonts2]
        · omega

/-- C4: the font cache never outgrows its fixed capacity.  drw_text
    preserves fontcount <= capacity and, once the cache is at capacity,
    returns it unchanged (fallback acquisition is skipped rather than
    overflowing); drw_load_fonts likewise keeps the cache within capacity
    (it dies before appending past it). -/
theorem font_cache_bounded :
    (∀ (env : DrwEnv) (CAP : Nat) (drwOk schemeOk : Bool) (fonts : List Fnt)
      (x y : Int) (w h : Nat) (text : Option (List Nat)) (xf : Int)
      (ff : List Fnt) (tr : List TraceEntry),
      drw_text env CAP drwOk schemeOk fonts x y w h text =
        some (Except.ok (xf, ff, tr)) →
      fonts.length ≤ CAP →
      ff.length ≤ CAP ∧ (CAP ≤ fonts.length → ff = fonts)) ∧
    (∀ (env : DrwEnv) (CAP : Nat) (cache : List Fnt) (specs : List Nat),
      cache.length ≤ CAP →
      (drw_load_fonts env CAP cache specs).1.length ≤ CAP) := by
  constructor
  · intro env CAP drwOk schemeOk fonts x y w h text xf ff tr hdt hle
    rw [drw_text.eq_def] at hdt
    by_cases hd : ¬ (drwOk = true) ∨ ¬ (schemeOk = true)
    · rw [if_pos hd] at hdt
      have h3 := Except.ok.inj (Option.some.inj hdt)
      have hff : ff = fonts := (congrArg (fun p => p.2.1) h3).symm
      rw [hff]
      exact ⟨hle, fun _ => rfl⟩
    · rw [if_neg hd] at hdt
      cases text with
      | none =>
        have h3 := Except.ok.inj (Option.some.inj hdt)
        have hff : ff = fonts := (congrArg (fun p => p.2.1) h3).symm
        rw [hff]
        exact ⟨hle, fun _ => rfl⟩
      | some t =>
        have hred : (match some t with
            | none => some (Except.ok ((0 : Int), fonts, ([] : List TraceEntry)))
            | some t =>
              if fonts.length = 0 then
                some (Except.ok ((0 : Int), fonts, ([] : List TraceEntry)))
              else textLoop env CAP (drwTextFuel CAP t)
                ⟨fonts, 0, false, 0, t, x,
                  if x = 0 ∧ y = 0 ∧ w = 0 ∧ h = 0 then 4294967295 else w, []⟩) =
            (if fonts.length = 0 then
                some (Except.ok ((0 : Int), fonts, ([] : List TraceEntry)))
              else textLoop env CAP (drwTextFuel CAP t)
                ⟨fonts, 0, false, 0, t, x,
                  if x = 0 ∧ y = 0 ∧ w = 0 ∧ h = 0 then 4294967295 else w, []⟩) := rfl
        rw [hred] at hdt
        by_cases hf0 : fonts.length = 0
        · rw [if_pos hf0] at hdt
          have h3 := Except.ok.inj (Option.some.inj hdt)
          have hff : ff = fonts := (congrArg (fun p => p.2.1) h3).symm
          rw [hff]
          exact ⟨hle, fun _ => rfl⟩
        · rw [if_neg hf0] at hdt
          have IH := textLoop_len env CAP (drwTextFuel CAP t)
            ⟨fonts, 0, false, 0, t, x,
              if x = 0 ∧ y = 0 ∧ w = 0 ∧ h = 0 then 4294967295 else w, []⟩
            xf ff tr hdt
          exact ⟨IH.1 hle, IH.2⟩
  · intro env CAP cache specs hle
    have hs := (drw_load_fonts_spec env CAP specs cache).2.2
    omega

unseal utf8decodeCont innerLoop shrinkLoop in
/-- Witness for C4: a full one-font cache is returned unchanged by a
    drw_text call whose text needs a glyph nobody covers, and batch loading
    into a full cache keeps it within capacity. -/
theorem font_cache_bounded_witness :
    (([⟨5, true, 2⟩] : List Fnt).length ≤ 1 ∧
      (1 ≤ ([⟨5, true, 2⟩] : List Fnt).length →
        ([⟨5, true, 2⟩] : List Fnt) = [⟨5, true, 2⟩])) ∧
    (drw_load_fonts
        ⟨fun _ _ => false, fun _ s => s.length, fun _ => none, fun _ => none,
          fun s => some (s, 3)⟩ 1 [⟨5, true, 2⟩] [9]).1.length ≤ 1 :=
  ⟨font_cache_bounded.1
      ⟨fun _ _ => false, fun _ s => s.length, fun _ => none, fun _ => none,
        fun s => some (s, 3)⟩ 1 true true [⟨5, true, 2⟩] 0 0 0 0 (some [65])
      1 [⟨5, true, 2⟩]
      [⟨0, 5, [65], 1, [65], 1⟩] (by decide) (by decide),
    font_cache_bounded.2
      ⟨fun _ _ => false, fun _ s => s.length, fun _ => none, fun _ => none,
        fun s => some (s, 3)⟩ 1 [⟨5, true, 2⟩] [9] (by decide)⟩

/-! ### The width-budget invariant of the emission step

The shorten-text loop engages only when the measured extent exceeds the
remaining budget.  Under the sanity bound that the measuring collaborator
reports extents below 2^16, a budget that stays 2^16 per remaining input
byte above the margin keeps the loop disengaged, so every emitted run keeps
min(len, 1023) bytes and advances the cursor by its full measured width. -/

/-- The continuation loop never reports more consumed bytes than the buffer
    holds: a read past the end sees the NUL terminator, whose lead type
    stops the loop at that index. -/
theorem utf8decodeCont_snd_le_length (c : List Nat) (clen len : Nat) :
    ∀ n k ud, len - k ≤ n → k ≤ c.length →
      (utf8decodeCont c clen len k ud).2 ≤ c.length := by
  intro n
  induction n with
  | zero =>
    intro k ud hn hk
    rw [utf8decodeCont]
    have hkl : ¬ (k < len) := by omega
    rw [dif_neg (fun hh => hkl hh.2), if_neg hkl]
    show len ≤ c.length
    omega
  | succ n ih =>
    intro k ud hn hk
    rw [utf8decodeCont]
    by_cases h : k < clen ∧ k < len
    · rw [dif_pos h]
      by_cases hkc : k < c.length
      · by_cases hv : (utf8decodebyte (c.getD k 0)).2 ≠ 0
        · rw [if_pos hv]
          show k ≤ c.length
          omega
        · rw [if_neg hv]
          exact ih (k + 1) _ (by omega) (by omega)
      · have hget : c.getD k 0 = 0 := List.getD_eq_default c 0 (by omega)
        rw [hget]
        rw [if_pos (by decide : ((utf8decodebyte 0).2 ≠ 0))]
        show k ≤ c.length
        omega
    · rw [dif_neg h]
      by_cases hkl : k < len
      · rw [if_pos hkl]
        exact Nat.zero_le _
      · rw [if_neg hkl]
        show len ≤ c.length
        omega

/-- utf8decode never consumes past the end of a nonempty buffer. -/
theorem utf8decode_snd_le_length (c : List Nat) (hc : c ≠ []) :
    (utf8decode c 4).2 ≤ c.length := by
  have hlen : 1 ≤ c.length := List.length_pos.mpr hc
  rw [utf8decode, if_neg (by omega : ¬ (4 : Nat) = 0)]
  by_cases hb : BETWEEN (utf8decodebyte (c.getD 0 0)).2 1 4 = true
  · rw [if_neg (by rw [hb]; decide)]
    exact utf8decodeCont_snd_le_length c 4 (utf8decodebyte (c.getD 0 0)).2
      ((utf8decodebyte (c.getD 0 0)).2 - 1) 1 _ (by omega) hlen
  · rw [if_pos (by simp only [Bool.not_eq_true] at hb; rw [hb]; decide)]
    show 1 ≤ c.length
    omega

/-- The run collected by a pass never exceeds the remaining text. -/
theorem innerLoop_consumed_le (env : DrwEnv) (fonts : List Fnt) (cur : Nat) :
    ∀ n text ce cp0, text.length ≤ n →
      (innerLoop env fonts cur ce cp0 text).consumed ≤ text.length := by
  intro n
  induction n with
  | zero =>
    intro text ce cp0 hn
    have htx : text = [] := by
      cases text with
      | nil => rfl
      | cons a l => simp at hn
    subst htx
    rw [innerLoop_nil]
    exact Nat.le_refl 0
  | succ n ih =>
    intro text ce cp0 hn
    cases text with
    | nil =>
      rw [innerLoop_nil]
      exact Nat.zero_le _
    | cons b tail =>
      by_cases hb : b = 0
      · rw [innerLoop_zero env fonts cur ce cp0 b tail hb]
        exact Nat.zero_le _
      · cases hscan : scanIdx env fonts ce (utf8decode (b :: tail) 4).1 with
        | none =>
          rw [innerLoop_nohit env fonts cur ce cp0 b tail hb hscan]
          exact Nat.zero_le _
        | some i =>
          by_cases hi : i = cur
          · rw [hi] at hscan
            rw [innerLoop_consume env fonts cur ce cp0 b tail hb hscan]
            have h1 := (utf8decode_snd_bounds (b :: tail)).1
            have h2 := utf8decode_snd_le_length (b :: tail) (by simp)
            have h3 := ih ((b :: tail).drop (utf8decode (b :: tail) 4).2) false
              (utf8decode (b :: tail) 4).1 (by
                simp only [List.length_drop, List.length_cons] at hn ⊢
                omega)
            show (utf8decode (b :: tail) 4).2 +
              (innerLoop env fonts cur false (utf8decode (b :: tail) 4).1
                ((b :: tail).drop (utf8decode (b :: tail) 4).2)).consumed ≤
              (b :: tail).length
            simp only [List.length_drop] at h3
            omega
          · rw [innerLoop_switch env fonts cur ce cp0 b tail hb i hscan hi]
            exact Nat.zero_le _

/-- An empty run emits nothing: utf8strlen = 0 skips the whole emission
    block. -/
theorem emitRun_zero (env : DrwEnv) (st : TextState) : emitRun env st 0 = st := by
  rw [emitRun, if_pos rfl]

/-- With extents below 2^16 and a budget of at least the margin plus 2^16
    per remaining byte, the shorten loop never engages: the emission keeps
    min(consumed, 1023) bytes and advances the cursor by the full measured
    width of the run. -/
theorem emitRun_spec (env : DrwEnv) (st : TextState) (c : Nat)
    (Hm : ∀ fid s, env.measureW fid s < 65536)
    (hc : ¬ c = 0) (hL : 1 ≤ st.text.length)
    (hinv : (st.fonts.headD noFnt).height + 65536 * st.text.length ≤ st.w) :
    emitRun env st c = { st with
      x := st.x + ((env.measureW (curFid st) (runBytes st c) : Nat) : Int),
      w := st.w - env.measureW (curFid st) (runBytes st c),
      trace := st.trace ++ [⟨st.cur, curFid st, runBytes st c, min c 1023,
        ellipsize (runBytes st c) (min c 1023) c,
        env.measureW (curFid st) (runBytes st c)⟩] } := by
  have hew := Hm (curFid st) (runBytes st c)
  have hnc : ¬ (min c 1023 ≠ 0 ∧
      (st.w - (st.fonts.headD noFnt).height <
        env.measureW (curFid st) (runBytes st c) ∨
      st.w < (st.fonts.headD noFnt).height)) := by
    intro hcon
    rcases hcon.2 with hd | hd <;> omega
  have hshr : shrinkRes env st c =
      (min c 1023, env.measureW (curFid st) (runBytes st c)) := by
    rw [shrinkRes, shrinkLoop, if_neg hnc]
  rw [emitRun, if_neg hc, hshr]
  rw [if_pos (show ¬ (min c 1023,
      env.measureW (curFid st) (runBytes st c)).1 = 0 by
    show ¬ min c 1023 = 0
    omega)]

/-- A hit reported by the cache scan is a real index whose font covers the
    codepoint. -/
theorem firstHit_lt (env : DrwEnv) (fonts : List Fnt) (cp i : Nat)
    (h : firstHit env fonts cp = some i) :
    i < fonts.length ∧ env.glyphExists (fonts.getD i noFnt).fid cp = true := by
  rw [firstHit, List.findIdx?_eq_some_iff_getElem] at h
  obtain ⟨hlt, hp, -⟩ := h
  refine ⟨hlt, ?_⟩
  rw [List.getD_eq_getElem fonts noFnt hlt]
  exact hp

/-- Every index the for-loop scan selects is within the cache. -/
theorem scanIdx_lt (env : DrwEnv) (fonts : List Fnt) (ce : Bool) (cp i : Nat)
    (h : scanIdx env fonts ce cp = some i) : i < fonts.length := by
  rw [scanIdx] at h
  by_cases hce : ce = true
  · rw [if_pos hce] at h
    by_cases he : fonts.isEmpty = true
    · rw [if_pos he] at h
      exact absurd h (by simp)
    · rw [if_neg he] at h
      have h0 : i = 0 := (Option.some.inj h).symm
      subst h0
      have : fonts ≠ [] := by
        intro hnil
        exact he (by rw [hnil]; rfl)
      exact List.length_pos.mpr this
  · rw [if_neg hce] at h
    exact (firstHit_lt env fonts cp i h).1

/-- A pending font switch always names an index within the cache. -/
theorem innerLoop_nextfont_lt (env : DrwEnv) (fonts : List Fnt) (cur : Nat) :
    ∀ n text ce cp0 nf, text.length ≤ n →
      (innerLoop env fonts cur ce cp0 text).nextfont = some nf →
      nf < fonts.length := by
  intro n
  induction n with
  | zero =>
    intro text ce cp0 nf hn hnf
    have htx : text = [] := by
      cases text with
      | nil => rfl
      | cons a l => simp at hn
    subst htx
    rw [innerLoop_nil] at hnf
    exact absurd hnf (by simp)
  | succ n ih =>
    intro text ce cp0 nf hn hnf
    cases text with
    | nil =>
      rw [innerLoop_nil] at hnf
      exact absurd hnf (by simp)
    | cons b tail =>
      by_cases hb : b = 0
      · rw [innerLoop_zero env fonts cur ce cp0 b tail hb] at hnf
        exact absurd hnf (by simp)
      · cases hscan : scanIdx env fonts ce (utf8decode (b :: tail) 4).1 with
        | none =>
          rw [innerLoop_nohit env fonts cur ce cp0 b tail hb hscan] at hnf
          exact absurd hnf (by simp)
        | some i =>
          by_cases hi : i = cur
          · rw [hi] at hscan
            rw [innerLoop_consume env fonts cur ce cp0 b tail hb hscan] at hnf
            have h1 := (utf8decode_snd_bounds (b :: tail)).1
            exact ih ((b :: tail).drop (utf8decode (b :: tail) 4).2) false
              (utf8decode (b :: tail) 4).1 nf (by
                simp only [List.length_drop, List.length_cons] at hn ⊢
                omega) hnf
          · rw [innerLoop_switch env fonts cur ce cp0 b tail hb i hscan hi] at hnf
            have h0 : i = nf := Option.some.inj hnf
            subst h0
            exact scanIdx_lt env fonts ce (utf8decode (b :: tail) 4).1 i hscan

/-- The budget invariant carried through drw_text's outer loop: with
    measured extents below 2^16 and a budget of at least the margin plus
    2^16 per remaining input byte, the shorten loop never engages, so the
    returned cursor is the start plus the sum of the full measured widths
    of the emitted runs; every run is a nonempty slice kept to
    min(length, 1023) bytes, drawn with a font of the final cache, and the
    runs cover the input up to the NUL terminator. -/
theorem textLoop_budget (env : DrwEnv) (CAP : Nat)
    (Hm : ∀ fid s, env.measureW fid s < 65536) :
    ∀ (fuel : Nat) (st : TextState) (x : Int) (f : List Fnt)
      (tr : List TraceEntry),
      st.fonts ≠ [] → st.cur < st.fonts.length →
      (st.fonts.headD noFnt).height + 65536 * st.text.length ≤ st.w →
      textLoop env CAP fuel st = some (Except.ok (x, f, tr)) →
      (∃ tl, f = st.fonts ++ tl) ∧
      ∃ Δ, tr = st.trace ++ Δ ∧
        x = st.x + (((Δ.map TraceEntry.width).sum : Nat) : Int) ∧
        (∃ rem, st.text = (Δ.map TraceEntry.run).flatten ++ rem ∧
          atEnd rem = true) ∧
        ∀ e ∈ Δ, e.width = env.measureW e.ffid e.run ∧
          e.run ≠ [] ∧
          e.kept = min e.run.length 1023 ∧
          e.buf = ellipsize e.run e.kept e.run.length ∧
          e.fontIdx < f.length ∧
          e.ffid = (f.getD e.fontIdx noFnt).fid := by
  intro fuel
  induction fuel with
  | zero =>
    intro st x f tr _ _ _ hl
    rw [textLoop] at hl
    exact absurd hl (by simp)
  | succ fuel ih =>
    intro st x f tr hfne hcur hinv hl
    have hrest : (passRes env st).rest =
        st.text.drop (passRes env st).consumed :=
      innerLoop_rest_eq env st.fonts st.cur st.text.length st.text st.ce st.cp
        (le_refl _)
    have hple : (passRes env st).consumed ≤ st.text.length :=
      innerLoop_consumed_le env st.fonts st.cur st.text.length st.text st.ce
        st.cp (le_refl _)
    rw [textLoop] at hl
    cases hti : textIter env CAP st with
    | inl r =>
      simp only [hti] at hl
      have hr : r = Except.ok (x, f, tr) := Option.some.inj hl
      rw [hr] at hti
      have hspec := textIter_inl_ok_spec env CAP st x f tr hti
      by_cases hc0 : (passRes env st).consumed = 0
      · refine ⟨⟨[], by rw [hspec.2.2.1, List.append_nil]⟩, [], ?_, ?_, ?_, ?_⟩
        · rw [hspec.2.2.2, hc0, emitRun_zero, List.append_nil]
        · rw [hspec.2.1, hc0, emitRun_zero]
          simp
        · refine ⟨st.text, by simp, ?_⟩
          have hend := hspec.1
          rw [hrest, hc0, List.drop_zero] at hend
          exact hend
        · intro e he
          exact absurd he (List.not_mem_nil e)
      · have hc1 : 1 ≤ (passRes env st).consumed := Nat.one_le_iff_ne_zero.mpr hc0
        have hL : 1 ≤ st.text.length := le_trans hc1 hple
        have hem := emitRun_spec env st (passRes env st).consumed Hm hc0 hL hinv
        refine ⟨⟨[], by rw [hspec.2.2.1, List.append_nil]⟩,
          [⟨st.cur, curFid st, runBytes st (passRes env st).consumed,
            min (passRes env st).consumed 1023,
            ellipsize (runBytes st (passRes env st).consumed)
              (min (passRes env st).consumed 1023) (passRes env st).consumed,
            env.measureW (curFid st)
              (runBytes st (passRes env st).consumed)⟩], ?_, ?_, ?_, ?_⟩
        · rw [hspec.2.2.2, hem]
        · rw [hspec.2.1, hem]
          simp
        · refine ⟨st.text.drop (passRes env st).consumed, ?_, ?_⟩
          · simp only [List.map_cons, List.map_nil, List.flatten_cons,
              List.flatten_nil, List.append_nil]
            rw [runBytes]
            exact (List.take_append_drop _ _).symm
          · have hend := hspec.1
            rw [hrest] at hend
            exact hend
        · intro e he
          have he2 := List.mem_singleton.mp he
          subst he2
          have hrl : (runBytes st (passRes env st).consumed).length =
              (passRes env st).consumed := by
            rw [runBytes, List.length_take]
            omega
          refine ⟨rfl, ?_, ?_, ?_, ?_, ?_⟩
          · show runBytes st (passRes env st).consumed ≠ []
            have hpos : 0 < (runBytes st (passRes env st).consumed).length := by
              omega
            exact List.length_pos.mp hpos
          · show min (passRes env st).consumed 1023 =
              min (runBytes st (passRes env st).consumed).length 1023
            omega
          · show ellipsize (runBytes st (passRes env st).consumed)
                (min (passRes env st).consumed 1023)
                (passRes env st).consumed =
              ellipsize (runBytes st (passRes env st).consumed)
                (min (passRes env st).consumed 1023)
                (runBytes st (passRes env st).consumed).length
            rw [hrl]
          · show st.cur < f.length
            rw [hspec.2.2.1]
            exact hcur
          · show curFid st = (f.getD st.cur noFnt).fid
            rw [hspec.2.2.1, curFid]
    | inr st2 =>
      simp only [hti] at hl
      have hpres := textIter_inr_pres env CAP st st2 hti hfne
      obtain ⟨htext2, hcp2, hx2, hw2, htr2, hbr⟩ :=
        textIter_inr_spec env CAP st st2 hti
      have hfc : (st2.fonts = st.fonts ∨ ∃ a, st2.fonts = st.fonts ++ [a]) ∧
          st2.cur < st2.fonts.length := by
        rcases hbr with ⟨nf, hnf, hce2, hcur2, hfonts2⟩ | ⟨hnfn, hce2, hsub⟩
        · refine ⟨Or.inl hfonts2, ?_⟩
          rw [hcur2, hfonts2]
          exact innerLoop_nextfont_lt env st.fonts st.cur st.text.length
            st.text st.ce st.cp nf (le_refl _) hnf
        · rcases hsub with ⟨hcur2, hfonts2⟩ | ⟨hcur2, hfonts2⟩ |
            ⟨hlt, hcur2, fh, hfonts2⟩
          · exact ⟨Or.inl hfonts2, by rw [hcur2, hfonts2]; exact hcur⟩
          · exact ⟨Or.inl hfonts2, by
              rw [hcur2, hfonts2]; exact List.length_pos.mpr hfne⟩
          · refine ⟨Or.inr ⟨⟨fh.1, false, fh.2⟩, hfonts2⟩, ?_⟩
            rw [hcur2, hfonts2]
            simp
      by_cases hc0 : (passRes env st).consumed = 0
      · have hE : emitRun env st (passRes env st).consumed = st := by
          rw [hc0]
          exact emitRun_zero env st
        rw [hE] at hx2 hw2 htr2
        have htxt : st2.text = st.text := by
          rw [htext2, hrest, hc0, List.drop_zero]
        have hinv2 : (st2.fonts.headD noFnt).height +
            65536 * st2.text.length ≤ st2.w := by
          rw [hpres.2, htxt, hw2]
          exact hinv
        obtain ⟨⟨tl2, hftl⟩, Δ, hΔtr, hΔx, ⟨rem, hcov, hceR⟩, hprops⟩ :=
          ih st2 x f tr hpres.1 hfc.2 hinv2 hl
        have hpre : ∃ tl, f = st.fonts ++ tl := by
          rcases hfc.1 with h2 | ⟨a, h2⟩
          · exact ⟨tl2, by rw [hftl, h2]⟩
          · exact ⟨a :: tl2, by rw [hftl, h2]; simp⟩
        refine ⟨hpre, Δ, ?_, ?_, ?_, hprops⟩
        · rw [hΔtr, htr2]
        · rw [hΔx, hx2]
        · refine ⟨rem, ?_, hceR⟩
          rw [← htxt]
          exact hcov
      · have hc1 : 1 ≤ (passRes env st).consumed := Nat.one_le_iff_ne_zero.mpr hc0
        have hL : 1 ≤ st.text.length := le_trans hc1 hple
        have hem := emitRun_spec env st (passRes env st).consumed Hm hc0 hL hinv
        have htxt : st2.text = st.text.drop (passRes env st).consumed := by
          rw [htext2, hrest]
        have hw2' : st2.w = st.w -
            env.measureW (curFid st) (runBytes st (passRes env st).consumed) := by
          rw [hw2, hem]
        have hx2' : st2.x = st.x + ((env.measureW (curFid st)
            (runBytes st (passRes env st).consumed) : Nat) : Int) := by
          rw [hx2, hem]
        have htr2' : st2.trace = st.trace ++
            [⟨st.cur, curFid st, runBytes st (passRes env st).consumed,
              min (passRes env st).consumed 1023,
              ellipsize (runBytes st (passRes env st).consumed)
                (min (passRes env st).consumed 1023) (passRes env st).consumed,
              env.measureW (curFid st)
                (runBytes st (passRes env st).consumed)⟩] := by
          rw [htr2, hem]
        have hinv2 : (st2.fonts.headD noFnt).height +
            65536 * st2.text.length ≤ st2.w := by
          rw [hpres.2, htxt, hw2']
          have hM := Hm (curFid st) (runBytes st (passRes env st).consumed)
          simp only [List.length_drop]
          omega
        obtain ⟨⟨tl2, hftl⟩, Δ', hΔtr, hΔx, ⟨rem, hcov, hceR⟩, hprops⟩ :=
          ih st2 x f tr hpres.1 hfc.2 hinv2 hl
        obtain ⟨tl, hfeq⟩ : ∃ tl, f = st.fonts ++ tl := by
          rcases hfc.1 with h2 | ⟨a, h2⟩
          · exact ⟨tl2, by rw [hftl, h2]⟩
          · exact ⟨a :: tl2, by rw [hftl, h2]; simp⟩
        refine ⟨⟨tl, hfeq⟩,
          ⟨st.cur, curFid st, runBytes st (passRes env st).consumed,
            min (passRes env st).consumed 1023,
            ellipsize (runBytes st (passRes env st).consumed)
              (min (passRes env st).consumed 1023) (passRes env st).consumed,
            env.measureW (curFid st)
              (runBytes st (passRes env st).consumed)⟩ :: Δ', ?_, ?_, ?_, ?_⟩
        · rw [hΔtr, htr2']
          simp
        · rw [hΔx, hx2']
          simp only [List.map_cons, List.sum_cons]
          push_cast
          ring
        · refine ⟨rem, ?_, hceR⟩
          simp only [List.map_cons, List.flatten_cons]
          rw [List.append_assoc, ← hcov, htxt, runBytes]
          exact (List.take_append_drop _ _).symm
        · intro e he
          rcases List.mem_cons.mp he with he2 | he2
          · subst he2
            have hrl : (runBytes st (passRes env st).consumed).length =
                (passRes env st).consumed := by
              rw [runBytes, List.length_take]
              omega
            refine ⟨rfl, ?_, ?_, ?_, ?_, ?_⟩
            · show runBytes st (passRes env st).consumed ≠ []
              have hpos : 0 < (runBytes st (passRes env st).consumed).length := by
                omega
              exact List.length_pos.mp hpos
            · show min (passRes env st).consumed 1023 =
                min (runBytes st (passRes env st).consumed).length 1023
              omega
            · show ellipsize (runBytes st (passRes env st).consumed)
                  (min (passRes env st).consumed 1023)
                  (passRes env st).consumed =
                ellipsize (runBytes st (passRes env st).consumed)
                  (min (passRes env st).consumed 1023)
                  (runBytes st (passRes env st).consumed).length
              rw [hrl]
            · show st.cur < f.length
              rw [hfeq, List.length_append]
              omega
            · show curFid st = (f.getD st.cur noFnt).fid
              rw [hfeq, List.getD_append st.fonts tl noFnt st.cur hcur, curFid]
          · exact hprops e he2

/-- With the drw, scheme and text guards passed and a nonempty cache,
    drw_text is the fuelled outer loop from the initial state. -/
theorem drw_text_run (env : DrwEnv) (CAP : Nat) (fonts : List Fnt)
    (x y : Int) (w h : Nat) (t : List Nat) (hf : fonts ≠ []) :
    drw_text env CAP true true fonts x y w h (some t) =
      textLoop env CAP (drwTextFuel CAP t)
        ⟨fonts, 0, false, 0, t, x,
          if x = 0 ∧ y = 0 ∧ w = 0 ∧ h = 0 then 4294967295 else w, []⟩ := by
  rw [drw_text.eq_def]
  rw [if_neg (by simp)]
  have hred : (match some t with
      | none => some (Except.ok ((0 : Int), fonts, ([] : List TraceEntry)))
      | some t =>
        if fonts.length = 0 then
          some (Except.ok ((0 : Int), fonts, ([] : List TraceEntry)))
        else textLoop env CAP (drwTextFuel CAP t)
          ⟨fonts, 0, false, 0, t, x,
            if x = 0 ∧ y = 0 ∧ w = 0 ∧ h = 0 then 4294967295 else w, []⟩) =
      (if fonts.length = 0 then
          some (Except.ok ((0 : Int), fonts, ([] : List TraceEntry)))
        else textLoop env CAP (drwTextFuel CAP t)
          ⟨fonts, 0, false, 0, t, x,
            if x = 0 ∧ y = 0 ∧ w = 0 ∧ h = 0 then 4294967295 else w, []⟩) := rfl
  rw [hred]
  rw [if_neg (fun h0 => hf (List.length_eq_zero.mp h0))]

/-- With any fuel left, an iteration that breaks out of the loop decides the
    result. -/
theorem textLoop_inl (env : DrwEnv) (CAP fuel : Nat) (st : TextState)
    (r : Except Unit (Int × List Fnt × List TraceEntry))
    (hf : 1 ≤ fuel) (hti : textIter env CAP st = Sum.inl r) :
    textLoop env CAP fuel st = some r := by
  cases fuel with
  | zero => omega
  | succ fuel =>
    rw [textLoop]
    simp only [hti]

/-- An ASCII byte decodes to itself with one byte consumed, whatever
    follows. -/
theorem utf8decode_ascii (rest : List Nat) : utf8decode (65 :: rest) 4 = (65, 1) := by
  rw [utf8decode]
  rw [if_neg (by decide : ¬ (4 : Nat) = 0)]
  have hg : (65 :: rest).getD 0 0 = 65 := rfl
  rw [hg]
  rw [if_neg (by decide : ¬ (!BETWEEN (utf8decodebyte 65).2 1 4) = true)]
  rw [show utf8decodebyte 65 = (65, 1) from by decide]
  rw [utf8decodeCont]
  rw [dif_neg (by decide : ¬ ((1 : Nat) < 4 ∧ (1 : Nat) < ((65, 1) : Nat × Nat).2))]
  rw [if_neg (by decide : ¬ ((1 : Nat) < ((65, 1) : Nat × Nat).2))]
  decide

/-- With a single cached font that covers the codepoint, the scan selects
    index 0 whether or not charexists is stale. -/
theorem scanIdx_single_cover (env : DrwEnv) (f : Fnt) (ce : Bool) (cp : Nat)
    (hg : env.glyphExists f.fid cp = true) :
    scanIdx env [f] ce cp = some 0 := by
  cases ce with
  | true => exact scanIdx_ce env [f] cp (by simp)
  | false =>
    rw [scanIdx_noce, firstHit]
    simp [List.findIdx?_cons, hg]

/-- On an all-ASCII text fully covered by the single cached font, one pass
    consumes everything into a single run. -/
theorem innerLoop_ascii_cover (env : DrwEnv) (f : Fnt)
    (hg : env.glyphExists f.fid 65 = true) :
    ∀ n (ce : Bool) (cp0 : Nat),
      innerLoop env [f] 0 ce cp0 (List.replicate (n + 1) 65) =
        ⟨n + 1, [], none, 65, false⟩ := by
  intro n
  induction n with
  | zero =>
    intro ce cp0
    have hrep : List.replicate 1 65 = 65 :: ([] : List Nat) := rfl
    rw [hrep]
    have hscan : scanIdx env [f] ce (utf8decode (65 :: ([] : List Nat)) 4).1 =
        some 0 := by
      rw [utf8decode_ascii]
      exact scanIdx_single_cover env f ce 65 hg
    rw [innerLoop_consume env [f] 0 ce cp0 65 [] (by omega) hscan]
    rw [utf8decode_ascii]
    simp [innerLoop_nil]
  | succ n ih =>
    intro ce cp0
    have hrep : List.replicate (n + 2) 65 = 65 :: List.replicate (n + 1) 65 := rfl
    rw [hrep]
    have hscan : scanIdx env [f] ce
        (utf8decode (65 :: List.replicate (n + 1) 65) 4).1 = some 0 := by
      rw [utf8decode_ascii]
      exact scanIdx_single_cover env f ce 65 hg
    rw [innerLoop_consume env [f] 0 ce cp0 65 (List.replicate (n + 1) 65)
      (by omega) hscan]
    rw [utf8decode_ascii]
    simp only [List.drop_succ_cons, List.drop_zero, ih]
    have hadd : 1 + (n + 1) = n + 2 := by omega
    simp [hadd]

/-- C5 (amended): with the unbounded budget of the all-zero-geometry
    measure mode, the shorten loop never engages, so the returned cursor
    equals the sum of the full measured widths of the emitted runs, the
    runs cover the input up to the NUL terminator, and every run of at
    most 1023 bytes (the copy-buffer ceiling) is kept whole, without any
    ellipsis overwrite.  Runs beyond 1023 bytes are still clipped by the
    buffer, which is why the unqualified "never truncates" is refuted
    separately.  The collaborator-sanity bounds keep the widths within the
    32-bit budget arithmetic. -/
theorem fit_unbounded_sums_widths (env : DrwEnv) (CAP : Nat)
    (fonts : List Fnt) (t : List Nat)
    (hfne : fonts ≠ []) (hpat : (fonts.headD noFnt).hasPattern = true)
    (Hm : ∀ fid s, env.measureW fid s < 65536)
    (hL : t.length ≤ 65534) (hh : (fonts.headD noFnt).height < 65536) :
    ∃ ff tr, drw_text env CAP true true fonts 0 0 0 0 (some t) =
      some (Except.ok ((((tr.map TraceEntry.width).sum : Nat) : Int), ff, tr)) ∧
      (∃ rem, t = (tr.map TraceEntry.run).flatten ++ rem ∧ atEnd rem = true) ∧
      ∀ e ∈ tr, e.width = env.measureW e.ffid e.run ∧
        e.run ≠ [] ∧
        (e.run.length ≤ 1023 → e.kept = e.run.length ∧ e.buf = e.run) := by
  have hterm := textLoop_ok env CAP (drwTextFuel CAP t)
    ⟨fonts, 0, false, 0, t, 0, 4294967295, []⟩ hfne hpat (by
      have hmeq : measureM env CAP ⟨fonts, 0, false, 0, t, 0, 4294967295, []⟩ =
          5 * t.length + 5 * (CAP - fonts.length) +
            phi env ⟨fonts, 0, false, 0, t, 0, 4294967295, []⟩ := by
        rw [measureM]
      rw [hmeq, drwTextFuel]
      have hb := phi_le_four env ⟨fonts, 0, false, 0, t, 0, 4294967295, []⟩
      have hs : CAP - fonts.length ≤ CAP := by omega
      omega)
  obtain ⟨xv, fv, trv, hloop⟩ := hterm
  have hbud := textLoop_budget env CAP Hm (drwTextFuel CAP t)
    ⟨fonts, 0, false, 0, t, 0, 4294967295, []⟩ xv fv trv hfne
    (List.length_pos.mpr hfne)
    (by
      show (fonts.headD noFnt).height + 65536 * t.length ≤ 4294967295
      omega) hloop
  obtain ⟨-, Δ, hΔtr, hΔx, hcovR, hprops⟩ := hbud
  have hΔtr2 : trv = Δ := by rw [hΔtr]; rfl
  have hx2 : xv = (((Δ.map TraceEntry.width).sum : Nat) : Int) := by
    rw [hΔx]
    show (0 : Int) + (((Δ.map TraceEntry.width).sum : Nat) : Int) = _
    rw [zero_add]
  rw [hΔtr2, hx2] at hloop
  refine ⟨fv, Δ, ?_, ?_, ?_⟩
  · rw [drw_text_run env CAP fonts 0 0 0 0 t hfne,
      if_pos ⟨rfl, rfl, rfl, rfl⟩]
    exact hloop
  · exact hcovR
  · intro e he
    obtain ⟨hwid, hne, hkept, hbuf, -, -⟩ := hprops e he
    refine ⟨hwid, hne, ?_⟩
    intro hle
    have hk : e.kept = e.run.length := by rw [hkept]; omega
    refine ⟨hk, ?_⟩
    rw [hbuf, hk, ellipsize,
      if_neg (by omega : ¬ e.run.length < e.run.length)]
    exact List.take_of_length_le (le_refl _)

/-- Witness for C5 (amended): a one-byte text on a one-font cache in
    measure mode, with a width-bounded measurer. -/
theorem fit_unbounded_sums_widths_witness :
    ∃ ff tr, drw_text ⟨fun _ _ => true, fun _ s => min s.length 65535,
        fun _ => none, fun _ => none, fun _ => none⟩ 1 true true
      [⟨0, true, 1⟩] 0 0 0 0 (some [65]) =
      some (Except.ok ((((tr.map TraceEntry.width).sum : Nat) : Int), ff, tr)) ∧
      (∃ rem, [65] = (tr.map TraceEntry.run).flatten ++ rem ∧
        atEnd rem = true) ∧
      ∀ e ∈ tr, e.width = min e.run.length 65535 ∧
        e.run ≠ [] ∧
        (e.run.length ≤ 1023 → e.kept = e.run.length ∧ e.buf = e.run) :=
  fit_unbounded_sums_widths
    ⟨fun _ _ => true, fun _ s => min s.length 65535, fun _ => none,
      fun _ => none, fun _ => none⟩ 1 [⟨0, true, 1⟩] [65]
    (by decide) (by decide)
    (fun _ s => Nat.lt_succ_of_le (Nat.min_le_right _ _))
    (by decide) (by decide)

set_option maxRecDepth 16384 in
/-- C5 counterexample: in measure mode (unbounded budget) a single-font
    1024-byte ASCII run is still truncated to the 1023-byte copy buffer
    and given the "..." overwrite, so "never truncates any run" fails for
    runs beyond the buffer ceiling; note the cursor still advances by the
    full measured width (here 0). -/
theorem fit_unbounded_truncates_long_run :
    drw_text ⟨fun _ _ => true, fun _ _ => 0, fun _ => none, fun _ => none,
        fun _ => none⟩ 4 true true [⟨0, true, 0⟩] 0 0 0 0
      (some (List.replicate 1024 65)) =
      some (Except.ok (0, [⟨0, true, 0⟩],
        [⟨0, 0, List.replicate 1024 65, 1023,
          List.replicate 1020 65 ++ [46, 46, 46], 0⟩])) ∧
    1023 < (List.replicate 1024 65 : List Nat).length := by
  refine ⟨?_, by simp⟩
  rw [drw_text_run ⟨fun _ _ => true, fun _ _ => 0, fun _ => none,
      fun _ => none, fun _ => none⟩ 4 [⟨0, true, 0⟩] 0 0 0 0
      (List.replicate 1024 65) (by simp),
    if_pos ⟨rfl, rfl, rfl, rfl⟩]
  apply textLoop_inl
  · rw [drwTextFuel]
    omega
  · have hpass : passRes ⟨fun _ _ => true, fun _ _ => 0, fun _ => none,
        fun _ => none, fun _ => none⟩
        ⟨[⟨0, true, 0⟩], 0, false, 0, List.replicate 1024 65, 0,
          4294967295, []⟩ = ⟨1024, [], none, 65, false⟩ :=
      innerLoop_ascii_cover ⟨fun _ _ => true, fun _ _ => 0, fun _ => none,
        fun _ => none, fun _ => none⟩ ⟨0, true, 0⟩ rfl 1023 false 0
    rw [textIter_end ⟨fun _ _ => true, fun _ _ => 0, fun _ => none,
      fun _ => none, fun _ => none⟩ 4
      ⟨[⟨0, true, 0⟩], 0, false, 0, List.replicate 1024 65, 0,
        4294967295, []⟩ (by rw [hpass]; rfl)]
    have hem := emitRun_spec ⟨fun _ _ => true, fun _ _ => 0, fun _ => none,
        fun _ => none, fun _ => none⟩
      ⟨[⟨0, true, 0⟩], 0, false, 0, List.replicate 1024 65, 0,
        4294967295, []⟩ 1024
      (fun _ _ => by show (0 : Nat) < 65536; decide)
      (by omega)
      (by
        show (1 : Nat) ≤ (List.replicate 1024 65 : List Nat).length
        rw [List.length_replicate]
        omega)
      (by
        show (0 : Nat) + 65536 * (List.replicate 1024 65 : List Nat).length ≤
          4294967295
        rw [List.length_replicate]
        omega)
    have hcons : (passRes ⟨fun _ _ => true, fun _ _ => 0, fun _ => none,
        fun _ => none, fun _ => none⟩
        ⟨[⟨0, true, 0⟩], 0, false, 0, List.replicate 1024 65, 0,
          4294967295, []⟩).consumed = 1024 := by rw [hpass]
    rw [hcons, hem]
    have hM : (⟨fun _ _ => true, fun _ _ => 0, fun _ => none, fun _ => none,
        fun _ => none⟩ : DrwEnv).measureW
        (curFid ⟨[⟨0, true, 0⟩], 0, false, 0, List.replicate 1024 65, 0,
          4294967295, []⟩)
        (runBytes ⟨[⟨0, true, 0⟩], 0, false, 0, List.replicate 1024 65, 0,
          4294967295, []⟩ 1024) = 0 := rfl
    rw [hM]
    have hrb : runBytes ⟨[⟨0, true, 0⟩], 0, false, 0, List.replicate 1024 65,
        0, 4294967295, []⟩ 1024 = List.replicate 1024 65 := by
      rw [runBytes]
      show (List.replicate 1024 65 : List Nat).take 1024 = List.replicate 1024 65
      rw [List.take_replicate, Nat.min_self]
    rw [hrb]
    have hmin : min (1024 : Nat) 1023 = 1023 := by omega
    rw [hmin]
    have hell : ellipsize (List.replicate 1024 65) 1023 1024 =
        List.replicate 1020 65 ++ [46, 46, 46] := by
      rw [ellipsize, if_pos (by omega : (1023 : Nat) < 1024),
        if_pos (by omega : (3 : Nat) ≤ 1023)]
      show (List.replicate 1024 65 : List Nat).take 1020 ++ [46, 46, 46] = _
      rw [List.take_replicate]
      norm_num
    rw [hell]
    simp [curFid]

/-- When every nonempty prefix measures over the margin-adjusted budget,
    the shorten loop runs the kept length all the way to zero. -/
theorem shrinkLoop_allover (env : DrwEnv) (fid : Nat) (str : List Nat)
    (h0 w : Nat)
    (H : ∀ l, 1 ≤ l → w - h0 < env.measureW fid (str.take l)) :
    ∀ len ew, w - h0 < ew → (shrinkLoop env fid str h0 w len ew).1 = 0 := by
  intro len
  induction len with
  | zero =>
    intro ew hew
    rw [shrinkLoop]
    rw [if_neg (fun hh => hh.1 rfl)]
  | succ len ih =>
    intro ew hew
    rw [shrinkLoop]
    rw [if_pos ⟨by omega, Or.inl hew⟩]
    exact ih (env.measureW fid (str.take (len + 1))) (H (len + 1) (by omega))

/-- When every nonempty string measures over the margin-adjusted budget,
    the emission keeps nothing: the cursor, the budget and the x position
    stay put and the appended run record carries an empty buffer. -/
theorem emitRun_small (env : DrwEnv) (st : TextState) (c : Nat)
    (hc : ¬ c = 0) (hL : 1 ≤ st.text.length)
    (Hs : ∀ fid s, s ≠ [] →
      st.w - (st.fonts.headD noFnt).height < env.measureW fid s) :
    emitRun env st c = { st with trace := st.trace ++
      [⟨st.cur, curFid st, runBytes st c, 0, [], (shrinkRes env st c).2⟩] } := by
  have hrun : runBytes st c ≠ [] := by
    have hpos : 0 < (runBytes st c).length := by
      rw [runBytes, List.length_take]
      omega
    exact List.length_pos.mp hpos
  have hshr1 : (shrinkRes env st c).1 = 0 := by
    rw [shrinkRes]
    apply shrinkLoop_allover env (curFid st) (runBytes st c)
      (st.fonts.headD noFnt).height st.w
    · intro l hl
      apply Hs
      have hpos : 0 < ((runBytes st c).take l).length := by
        rw [List.length_take, runBytes, List.length_take]
        omega
      exact List.length_pos.mp hpos
    · exact Hs (curFid st) (runBytes st c) hrun
  rw [emitRun, if_neg hc, if_neg (fun hh => hh hshr1)]

/-- Along the outer loop, a budget below every nonempty string's measure
    freezes the cursor: the returned x is the starting x and every emitted
    run keeps zero bytes with an empty buffer. -/
theorem textLoop_small (env : DrwEnv) (CAP : Nat) :
    ∀ (fuel : Nat) (st : TextState) (x : Int) (f : List Fnt)
      (tr : List TraceEntry),
      st.fonts ≠ [] →
      (∀ fid s, s ≠ [] →
        st.w - (st.fonts.headD noFnt).height < env.measureW fid s) →
      textLoop env CAP fuel st = some (Except.ok (x, f, tr)) →
      x = st.x ∧ ∃ Δ, tr = st.trace ++ Δ ∧
        ∀ e ∈ Δ, e.kept = 0 ∧ e.buf = [] := by
  intro fuel
  induction fuel with
  | zero =>
    intro st x f tr _ _ hl
    rw [textLoop] at hl
    exact absurd hl (by simp)
  | succ fuel ih =>
    intro st x f tr hfne Hs hl
    have hple : (passRes env st).consumed ≤ st.text.length :=
      innerLoop_consumed_le env st.fonts st.cur st.text.length st.text st.ce
        st.cp (le_refl _)
    have hEfacts : (emitRun env st (passRes env st).consumed).x = st.x ∧
        (emitRun env st (passRes env st).consumed).w = st.w ∧
        ∃ d, (emitRun env st (passRes env st).consumed).trace =
          st.trace ++ d ∧ ∀ e ∈ d, e.kept = 0 ∧ e.buf = [] := by
      by_cases hc0 : (passRes env st).consumed = 0
      · rw [hc0, emitRun_zero]
        exact ⟨rfl, rfl, [], by rw [List.append_nil], by simp⟩
      · have hc1 : 1 ≤ (passRes env st).consumed :=
          Nat.one_le_iff_ne_zero.mpr hc0
        have hL : 1 ≤ st.text.length := le_trans hc1 hple
        rw [emitRun_small env st (passRes env st).consumed hc0 hL Hs]
        refine ⟨rfl, rfl, [⟨st.cur, curFid st,
          runBytes st (passRes env st).consumed, 0, [],
          (shrinkRes env st (passRes env st).consumed).2⟩], rfl, ?_⟩
        intro e he
        have he2 := List.mem_singleton.mp he
        subst he2
        exact ⟨rfl, rfl⟩
    rw [textLoop] at hl
    cases hti : textIter env CAP st with
    | inl r =>
      simp only [hti] at hl
      have hr : r = Except.ok (x, f, tr) := Option.some.inj hl
      rw [hr] at hti
      have hspec := textIter_inl_ok_spec env CAP st x f tr hti
      obtain ⟨d, hd, hdprops⟩ := hEfacts.2.2
      refine ⟨by rw [hspec.2.1, hEfacts.1], d, ?_, hdprops⟩
      rw [hspec.2.2.2, hd]
    | inr st2 =>
      simp only [hti] at hl
      have hpres := textIter_inr_pres env CAP st st2 hti hfne
      obtain ⟨htext2, hcp2, hx2, hw2, htr2, hbr⟩ :=
        textIter_inr_spec env CAP st st2 hti
      have Hs2 : ∀ fid s, s ≠ [] →
          st2.w - (st2.fonts.headD noFnt).height < env.measureW fid s := by
        intro fid s hs
        rw [hw2, hEfacts.2.1, hpres.2]
        exact Hs fid s hs
      obtain ⟨hx', Δ', hΔtr, hprops'⟩ := ih st2 x f tr hpres.1 Hs2 hl
      obtain ⟨d, hd, hdprops⟩ := hEfacts.2.2
      refine ⟨by rw [hx', hx2, hEfacts.1], d ++ Δ', ?_, ?_⟩
      · rw [hΔtr, htr2, hd, List.append_assoc]
      · intro e he
        rcases List.mem_append.mp he with he2 | he2
        · exact hdprops e he2
        · exact hprops' e he2

/-- C8: a width budget below every character's measured width freezes the
    cursor: drw_text returns the starting x and every emitted run keeps
    zero bytes, so no ellipsis byte is ever written past the (zero)
    truncated length.  And the ellipsis overwrite itself: when truncation
    removes content from a kept prefix, a prefix of at least 3 bytes has
    exactly its last 3 bytes replaced by '.' (byte 46), while a shorter
    prefix is left without any periods (the C loop's size_t wrap makes it
    write nothing), never more periods than the prefix has room for. -/
theorem small_budget_zero_advance :
    (∀ (env : DrwEnv) (CAP : Nat) (fonts : List Fnt) (x y : Int) (w h : Nat)
      (t : List Nat) (xf : Int) (ff : List Fnt) (tr : List TraceEntry),
      fonts ≠ [] →
      ¬ (x = 0 ∧ y = 0 ∧ w = 0 ∧ h = 0) →
      (∀ fid s, s ≠ [] →
        w - (fonts.headD noFnt).height < env.measureW fid s) →
      drw_text env CAP true true fonts x y w h (some t) =
        some (Except.ok (xf, ff, tr)) →
      xf = x ∧ ∀ e ∈ tr, e.kept = 0 ∧ e.buf = []) ∧
    (∀ (s : List Nat) (len runLen : Nat), len < runLen →
      (3 ≤ len → ellipsize s len runLen = s.take (len - 3) ++ [46, 46, 46]) ∧
      (len < 3 → ellipsize s len runLen = s.take len)) := by
  constructor
  · intro env CAP fonts x y w h t xf ff tr hfne hgeo Hs hdt
    rw [drw_text_run env CAP fonts x y w h t hfne, if_neg hgeo] at hdt
    obtain ⟨hx', Δ', hΔtr, hprops'⟩ := textLoop_small env CAP
      (drwTextFuel CAP t) ⟨fonts, 0, false, 0, t, x, w, []⟩ xf ff tr hfne
      (by
        intro fid s hs
        show w - (fonts.headD noFnt).height < env.measureW fid s
        exact Hs fid s hs) hdt
    refine ⟨hx', ?_⟩
    intro e he
    have htr2 : tr = Δ' := by rw [hΔtr]; rfl
    rw [htr2] at he
    exact hprops' e he
  · intro s len runLen hlt
    constructor
    · intro h3
      rw [ellipsize, if_pos hlt, if_pos h3]
    · intro h3
      rw [ellipsize, if_pos hlt, if_neg (by omega)]

unseal utf8decodeCont innerLoop shrinkLoop in
/-- Witness for C8: a 5-pixel budget under a font of height 1 with every
    string measuring 100 pixels keeps the cursor at 7 and emits one empty
    run for the text "A"; and the ellipsis overwrite on a kept prefix of 4
    out of 5 bytes rewrites exactly its last 3 bytes. -/
theorem small_budget_zero_advance_witness :
    ((7 : Int) = 7 ∧ ∀ e ∈ [(⟨0, 0, [65], 0, [], 100⟩ : TraceEntry)],
      TraceEntry.kept e = 0 ∧ TraceEntry.buf e = []) ∧
    ((3 ≤ 4 → ellipsize [1, 2, 3, 4, 5] 4 5 =
        [1, 2, 3, 4, 5].take (4 - 3) ++ [46, 46, 46]) ∧
      (4 < 3 → ellipsize [1, 2, 3, 4, 5] 4 5 = [1, 2, 3, 4, 5].take 4)) :=
  ⟨small_budget_zero_advance.1
      ⟨fun _ _ => true, fun _ _ => 100, fun _ => none, fun _ => none,
        fun _ => none⟩ 4 [⟨0, true, 1⟩] 7 0 5 9 [65] 7 [⟨0, true, 1⟩]
      [⟨0, 0, [65], 0, [], 100⟩] (by decide) (by decide)
      (fun fid s hs => by show (5 : Nat) - 1 < 100; decide) (by decide),
    small_budget_zero_advance.2 [1, 2, 3, 4, 5] 4 5 (by decide)⟩

/-- With the cache at capacity the die path is unreachable (the capacity
    check precedes the pattern check), so an inl result is always ok. -/
theorem textIter_inl_ok_full (env : DrwEnv) (CAP : Nat) (st : TextState)
    (hful : CAP ≤ st.fonts.length)
    (r : Except Unit (Int × List Fnt × List TraceEntry))
    (h : textIter env CAP st = Sum.inl r) :
    ∃ x f tr, r = Except.ok (x, f, tr) := by
  by_cases hend : atEnd (passRes env st).rest = true
  · rw [textIter_end env CAP st hend] at h
    exact ⟨_, _, _, (Sum.inl.inj h).symm⟩
  · cases hnf : (passRes env st).nextfont with
    | some nf =>
      rw [textIter_switch env CAP st nf hend hnf] at h
      exact absurd h (by simp)
    | none =>
      rw [textIter_full env CAP st hend hnf hful] at h
      exact absurd h (by simp)

/-- The outer loop on a full cache terminates without dying, whatever the
    primary font's pattern: fallback acquisition (and with it the die) is
    skipped outright. -/
theorem textLoop_full_ok (env : DrwEnv) (CAP : Nat) :
    ∀ (fuel : Nat) (st : TextState), st.fonts ≠ [] →
      CAP ≤ st.fonts.length →
      measureM env CAP st < fuel →
      ∃ x f tr, textLoop env CAP fuel st = some (Except.ok (x, f, tr)) := by
  intro fuel
  induction fuel with
  | zero =>
    intro st _ _ hm
    omega
  | succ fuel ih =>
    intro st hfne hful hm
    rw [textLoop]
    cases hti : textIter env CAP st with
    | inl r =>
      obtain ⟨x, f, tr, hr⟩ := textIter_inl_ok_full env CAP st hful r hti
      exact ⟨x, f, tr, by rw [hr]⟩
    | inr st2 =>
      have hlt := textIter_measure_lt env CAP st st2 hfne hti
      have hpres := textIter_inr_pres env CAP st st2 hti hfne
      have hful2 : CAP ≤ st2.fonts.length := by
        obtain ⟨-, -, -, -, -, hbr⟩ := textIter_inr_spec env CAP st st2 hti
        rcases hbr with ⟨nf, -, -, -, hfonts2⟩ | ⟨-, -, hsub⟩
        · rw [hfonts2]
          exact hful
        · rcases hsub with ⟨-, hfonts2⟩ | ⟨-, hfonts2⟩ | ⟨hlt2, -, -, -⟩
          · rw [hfonts2]
            exact hful
          · rw [hfonts2]
            exact hful
          · omega
      exact ih st2 hpres.1 hful2 (by omega)

unseal utf8decodeCont innerLoop shrinkLoop in
/-- C2 counterexample: with a full two-font cache where only font 1 covers
    'A' and nothing covers 'B', the current font when 'B' fails to resolve
    is index 1 (it just drew the run "A"), yet 'B' is drawn with font
    index 0: the cache-full fallback routes the character to fonts[0], not
    to the unchanged current font, so "the character is still drawn with
    that [current] font" fails whenever curfont is not fonts[0]. -/
theorem cache_full_two_fonts_counterexample :
    drw_text ⟨fun fid cp => decide (fid = 1) && decide (cp = 65),
        fun _ s => s.length, fun _ => none, fun _ => none, fun _ => none⟩
      2 true true [⟨0, true, 1⟩, ⟨1, true, 1⟩] 0 0 0 0 (some [65, 66]) =
      some (Except.ok (2, [⟨0, true, 1⟩, ⟨1, true, 1⟩],
        [⟨1, 1, [65], 1, [65], 1⟩, ⟨0, 0, [66], 1, [66], 1⟩])) ∧
    (⟨0, 0, [66], 1, [66], 1⟩ : TraceEntry).fontIdx ≠
      (⟨1, 1, [65], 1, [65], 1⟩ : TraceEntry).fontIdx :=
  ⟨by decide, by decide⟩

/-- C2 (amended): when the cache is at capacity and no cached font covers
    the codepoint, the resolver makes no acquisition attempt and leaves
    the cache and curfont unchanged, forcing charexists so the character
    is drawn rather than skipped; the character is then drawn with
    fonts[0] (the scan's last resort), which coincides with the current
    font exactly in the claim's highlighted case: with a full cache of a
    single font that lacks the glyph, every character is drawn with that
    same font (index 0), nothing is skipped and nothing raises. -/
theorem cache_full_resolution :
    (∀ (env : DrwEnv) (CAP : Nat) (st st2 : TextState),
      CAP ≤ st.fonts.length →
      ¬ atEnd (passRes env st).rest = true →
      (passRes env st).nextfont = none →
      textIter env CAP st = Sum.inr st2 →
      st2.fonts = st.fonts ∧ st2.cur = st.cur ∧ st2.ce = true) ∧
    (∀ (env : DrwEnv) (f : Fnt) (t : List Nat),
      (∀ cp, env.glyphExists f.fid cp = false) →
      (∀ fid s, env.measureW fid s < 65536) →
      t.length ≤ 65534 → f.height < 65536 →
      ∃ tr, drw_text env 1 true true [f] 0 0 0 0 (some t) =
        some (Except.ok ((((tr.map TraceEntry.width).sum : Nat) : Int),
          [f], tr)) ∧
        (∃ rem, t = (tr.map TraceEntry.run).flatten ++ rem ∧
          atEnd rem = true) ∧
        ∀ e ∈ tr, e.fontIdx = 0 ∧ e.ffid = f.fid ∧ e.run ≠ [] ∧
          1 ≤ e.kept) := by
  constructor
  · intro env CAP st st2 hful hend hnf hti
    rw [textIter_full env CAP st hend hnf hful] at hti
    have h2 := Sum.inr.inj hti
    subst h2
    refine ⟨?_, ?_, rfl⟩
    · show (emitRun env st (passRes env st).consumed).fonts = st.fonts
      exact (emitRun_fields env st (passRes env st).consumed).1
    · show (emitRun env st (passRes env st).consumed).cur = st.cur
      exact (emitRun_fields env st (passRes env st).consumed).2.1
  · intro env f t hg Hm hL hh
    have hfne : [f] ≠ ([] : List Fnt) := by simp
    obtain ⟨xv, fv, trv, hloop⟩ := textLoop_full_ok env 1 (drwTextFuel 1 t)
      ⟨[f], 0, false, 0, t, 0, 4294967295, []⟩ hfne
      (by show (1 : Nat) ≤ [f].length; simp)
      (by
        have hmeq : measureM env 1 ⟨[f], 0, false, 0, t, 0, 4294967295, []⟩ =
            5 * t.length + 5 * (1 - [f].length) +
              phi env ⟨[f], 0, false, 0, t, 0, 4294967295, []⟩ := by
          rw [measureM]
        rw [hmeq, drwTextFuel]
        have hb := phi_le_four env ⟨[f], 0, false, 0, t, 0, 4294967295, []⟩
        omega)
    have hlen := textLoop_len env 1 (drwTextFuel 1 t)
      ⟨[f], 0, false, 0, t, 0, 4294967295, []⟩ xv fv trv hloop
    have hfv : fv = [f] := hlen.2 (by show (1 : Nat) ≤ [f].length; simp)
    obtain ⟨-, Δ, hΔtr, hΔx, hcovR, hprops⟩ := textLoop_budget env 1 Hm
      (drwTextFuel 1 t) ⟨[f], 0, false, 0, t, 0, 4294967295, []⟩ xv fv trv
      hfne (by show (0 : Nat) < [f].length; simp)
      (by
        show f.height + 65536 * t.length ≤ 4294967295
        omega) hloop
    have hΔtr2 : trv = Δ := by rw [hΔtr]; rfl
    have hx2 : xv = (((Δ.map TraceEntry.width).sum : Nat) : Int) := by
      rw [hΔx]
      show (0 : Int) + (((Δ.map TraceEntry.width).sum : Nat) : Int) = _
      rw [zero_add]
    rw [hΔtr2, hx2, hfv] at hloop
    refine ⟨Δ, ?_, hcovR, ?_⟩
    · rw [drw_text_run env 1 [f] 0 0 0 0 t hfne, if_pos ⟨rfl, rfl, rfl, rfl⟩]
      exact hloop
    · intro e he
      obtain ⟨-, hne, hkept, -, hidx, hffid⟩ := hprops e he
      have hidx0 : e.fontIdx = 0 := by
        rw [hfv] at hidx
        simp only [List.length_singleton] at hidx
        omega
      refine ⟨hidx0, ?_, hne, ?_⟩
      · rw [hffid, hfv, hidx0]
        rfl
      · have hpos : 0 < e.run.length := List.length_pos.mpr hne
        rw [hkept]
        omega

unseal utf8decodeCont innerLoop shrinkLoop in
/-- Witness for C2 (amended): a full one-font cache facing an uncovered
    'A' keeps its cache, current font and forced charexists through the
    resolution step, and end to end the single-font full cache draws the
    text with that font. -/
theorem cache_full_resolution_witness :
    (([(⟨3, true, 1⟩ : Fnt)] = [⟨3, true, 1⟩] ∧ (0 : Nat) = 0 ∧
      true = true)) ∧
    (∃ tr, drw_text ⟨fun _ _ => false, fun _ s => min s.length 65535,
        fun _ => none, fun _ => none, fun _ => none⟩ 1 true true
      [⟨0, true, 1⟩] 0 0 0 0 (some [65]) =
      some (Except.ok ((((tr.map TraceEntry.width).sum : Nat) : Int),
        [⟨0, true, 1⟩], tr)) ∧
      (∃ rem, [65] = (tr.map TraceEntry.run).flatten ++ rem ∧
        atEnd rem = true) ∧
      ∀ e ∈ tr, e.fontIdx = 0 ∧ e.ffid = 0 ∧ e.run ≠ [] ∧ 1 ≤ e.kept) :=
  ⟨cache_full_resolution.1
      ⟨fun _ _ => false, fun _ s => s.length, fun _ => none, fun _ => none,
        fun _ => none⟩ 1
      ⟨[⟨3, true, 1⟩], 0, false, 0, [65], 0, 100, []⟩
      ⟨[⟨3, true, 1⟩], 0, true, 65, [65], 0, 100, []⟩
      (by decide) (by decide) (by decide) (by decide),
    cache_full_resolution.2
      ⟨fun _ _ => false, fun _ s => min s.length 65535, fun _ => none,
        fun _ => none, fun _ => none⟩ ⟨0, true, 1⟩ [65]
      (fun cp => rfl)
      (fun _ s => Nat.lt_succ_of_le (Nat.min_le_right _ _))
      (by decide) (by decide)⟩

/-- With charexists forced, curfont at 0 and a single codepoint left before
    the NUL, the next iteration consumes it into a run drawn with fonts[0]
    and returns. -/
theorem textIter_last_consume (env : DrwEnv) (CAP : Nat) (st : TextState)
    (b : Nat) (tail : List Nat)
    (Hm : ∀ fid s, env.measureW fid s < 65536)
    (htext : st.text = b :: tail) (hb : ¬ b = 0)
    (hfne : st.fonts ≠ []) (hce : st.ce = true) (hcur : st.cur = 0)
    (hendr : atEnd (st.text.drop (utf8decode st.text 4).2) = true)
    (hinv : (st.fonts.headD noFnt).height + 65536 * st.text.length ≤ st.w) :
    textIter env CAP st = Sum.inl (Except.ok
      (st.x + ((env.measureW (st.fonts.headD noFnt).fid
          (st.text.take (utf8decode st.text 4).2) : Nat) : Int),
        st.fonts,
        st.trace ++ [⟨0, (st.fonts.headD noFnt).fid,
          st.text.take (utf8decode st.text 4).2,
          min (utf8decode st.text 4).2 1023,
          ellipsize (st.text.take (utf8decode st.text 4).2)
            (min (utf8decode st.text 4).2 1023) (utf8decode st.text 4).2,
          env.measureW (st.fonts.headD noFnt).fid
            (st.text.take (utf8decode st.text 4).2)⟩])) := by
  have hgd : st.fonts.getD 0 noFnt = st.fonts.headD noFnt := by
    cases st.fonts with
    | nil => rfl
    | cons a l => rfl
  have hd1 : 1 ≤ (utf8decode st.text 4).2 := (utf8decode_snd_bounds st.text).1
  have hendr' : atEnd ((b :: tail).drop (utf8decode (b :: tail) 4).2) = true := by
    rw [← htext]
    exact hendr
  have hr' : innerLoop env st.fonts 0 false (utf8decode (b :: tail) 4).1
      ((b :: tail).drop (utf8decode (b :: tail) 4).2) =
      ⟨0, (b :: tail).drop (utf8decode (b :: tail) 4).2, none,
        (utf8decode (b :: tail) 4).1, false⟩ := by
    cases hdr : (b :: tail).drop (utf8decode (b :: tail) 4).2 with
    | nil =>
      exact innerLoop_nil env st.fonts 0 false _
    | cons c r =>
      have hc0 : c = 0 := by
        rw [hdr] at hendr'
        simpa [atEnd] using hendr'
      exact innerLoop_zero env st.fonts 0 false _ c r hc0
  have hpass : passRes env st = ⟨(utf8decode st.text 4).2,
      st.text.drop (utf8decode st.text 4).2, none,
      (utf8decode st.text 4).1, false⟩ := by
    show innerLoop env st.fonts st.cur st.ce st.cp st.text = _
    rw [hcur, hce, htext]
    rw [innerLoop_consume env st.fonts 0 true st.cp b tail hb
      (scanIdx_ce env st.fonts _ hfne)]
    rw [hr']
    simp
  have hend2 : atEnd (passRes env st).rest = true := by
    rw [hpass]
    exact hendr
  rw [textIter_end env CAP st hend2]
  have hcons : (passRes env st).consumed = (utf8decode st.text 4).2 := by
    rw [hpass]
  have hem := emitRun_spec env st (utf8decode st.text 4).2 Hm (by omega)
    (by rw [htext]; simp) hinv
  rw [hcons, hem]
  have hcf : curFid st = (st.fonts.headD noFnt).fid := by
    rw [curFid, hcur, hgd]
  simp only [runBytes, hcf, hcur]

/-- C3: fallback acquisition when the cache is not full and no cached font
    covers the codepoint.  (1) If the matcher returns a pattern that opens
    to a font containing the glyph, that font is appended to the cache and
    becomes the new current font.  (2) If the opened font does not contain
    the glyph (the match lied), it is discarded — the cache is unchanged —
    and curfont falls back to cache[0].  (3) If matching fails entirely,
    the loop draws the pending codepoint with cache[0]: from the forced
    charexists state the failed match leaves behind (current font
    arbitrary, cache unchanged), the single pending codepoint is emitted
    as a run with font index 0, fonts[0]'s identity, and a nonzero kept
    length. -/
theorem fallback_acquisition :
    (∀ (env : DrwEnv) (CAP : Nat) (st st2 : TextState) (pid : Nat)
      (fh : Nat × Nat),
      ¬ atEnd (passRes env st).rest = true →
      (passRes env st).nextfont = none →
      ¬ CAP ≤ st.fonts.length →
      (st.fonts.headD noFnt).hasPattern = true →
      env.matchFont (passRes env st).cp = some pid →
      env.openPattern pid = some fh →
      env.glyphExists fh.1 (passRes env st).cp = true →
      textIter env CAP st = Sum.inr st2 →
      st2.fonts = st.fonts ++ [⟨fh.1, false, fh.2⟩] ∧
      st2.cur = st.fonts.length ∧
      st2.fonts.getD st2.cur noFnt = ⟨fh.1, false, fh.2⟩ ∧
      st2.ce = true) ∧
    (∀ (env : DrwEnv) (CAP : Nat) (st st2 : TextState) (pid : Nat)
      (fh : Nat × Nat),
      ¬ atEnd (passRes env st).rest = true →
      (passRes env st).nextfont = none →
      ¬ CAP ≤ st.fonts.length →
      (st.fonts.headD noFnt).hasPattern = true →
      env.matchFont (passRes env st).cp = some pid →
      env.openPattern pid = some fh →
      env.glyphExists fh.1 (passRes env st).cp = false →
      textIter env CAP st = Sum.inr st2 →
      st2.fonts = st.fonts ∧ st2.cur = 0 ∧ st2.ce = true) ∧
    (∀ (env : DrwEnv) (CAP : Nat) (st : TextState) (fuel b : Nat)
      (tail : List Nat),
      (∀ fid s, env.measureW fid s < 65536) →
      st.text = b :: tail → ¬ b = 0 →
      st.fonts ≠ [] → st.ce = true →
      ¬ CAP ≤ st.fonts.length →
      (st.fonts.headD noFnt).hasPattern = true →
      firstHit env st.fonts (utf8decode st.text 4).1 = none →
      env.matchFont (utf8decode st.text 4).1 = none →
      atEnd (st.text.drop (utf8decode st.text 4).2) = true →
      (st.fonts.headD noFnt).height + 65536 * st.text.length ≤ st.w →
      3 ≤ fuel →
      textLoop env CAP fuel st = some (Except.ok
        (st.x + ((env.measureW (st.fonts.headD noFnt).fid
            (st.text.take (utf8decode st.text 4).2) : Nat) : Int),
          st.fonts,
          st.trace ++ [⟨0, (st.fonts.headD noFnt).fid,
            st.text.take (utf8decode st.text 4).2,
            min (utf8decode st.text 4).2 1023,
            ellipsize (st.text.take (utf8decode st.text 4).2)
              (min (utf8decode st.text 4).2 1023) (utf8decode st.text 4).2,
            env.measureW (st.fonts.headD noFnt).fid
              (st.text.take (utf8decode st.text 4).2)⟩])) ∧
      1 ≤ min (utf8decode st.text 4).2 1023) := by
  refine ⟨?_, ?_, ?_⟩
  · intro env CAP st st2 pid fh hend hnf hful hpat hm ho hg hti
    rw [textIter_append env CAP st hend hnf hful hpat pid hm fh ho hg] at hti
    have h2 := Sum.inr.inj hti
    subst h2
    refine ⟨?_, ?_, ?_, rfl⟩
    · show (emitRun env st (passRes env st).consumed).fonts ++
        [⟨fh.1, false, fh.2⟩] = st.fonts ++ [⟨fh.1, false, fh.2⟩]
      rw [(emitRun_fields env st (passRes env st).consumed).1]
    · show (emitRun env st (passRes env st).consumed).fonts.length =
        st.fonts.length
      rw [(emitRun_fields env st (passRes env st).consumed).1]
    · show ((emitRun env st (passRes env st).consumed).fonts ++
          ([⟨fh.1, false, fh.2⟩] : List Fnt)).getD
          (emitRun env st (passRes env st).consumed).fonts.length noFnt =
        (⟨fh.1, false, fh.2⟩ : Fnt)
      rw [List.getD_append_right _ _ _ _ (le_refl _), Nat.sub_self]
      rfl
  · intro env CAP st st2 pid fh hend hnf hful hpat hm ho hg hti
    rw [textIter_noglyph env CAP st hend hnf hful hpat pid hm fh ho hg] at hti
    have h2 := Sum.inr.inj hti
    subst h2
    refine ⟨?_, rfl, rfl⟩
    show (emitRun env st (passRes env st).consumed).fonts = st.fonts
    rw [(emitRun_fields env st (passRes env st).consumed).1]
  · intro env CAP st fuel b tail Hm htext hb hfne hce hful hpat hfh hmatch
      hendr hinv hfuel
    have hd1 : 1 ≤ (utf8decode st.text 4).2 := (utf8decode_snd_bounds st.text).1
    refine ⟨?_, by omega⟩
    by_cases hcur0 : st.cur = 0
    · exact textLoop_inl env CAP fuel st _ (by omega)
        (textIter_last_consume env CAP st b tail Hm htext hb hfne hce hcur0
          hendr hinv)
    · -- the switch to fonts[0], the repeated failed match, then the consume
      have hbend : ¬ atEnd (b :: tail) = true := by
        simp [atEnd, hb]
      have hpass1 : passRes env st = ⟨0, st.text, some 0,
          (utf8decode st.text 4).1, true⟩ := by
        show innerLoop env st.fonts st.cur st.ce st.cp st.text = _
        rw [hce, htext]
        exact innerLoop_switch env st.fonts st.cur true st.cp b tail hb 0
          (scanIdx_ce env st.fonts _ hfne) (fun h0 => hcur0 h0.symm)
      have hti1 : textIter env CAP st = Sum.inr
          ⟨st.fonts, 0, false, (utf8decode st.text 4).1, st.text, st.x,
            st.w, st.trace⟩ := by
        rw [textIter_switch env CAP st 0
          (by rw [hpass1]; rw [htext]; exact hbend) (by rw [hpass1])]
        rw [show (passRes env st).consumed = 0 from by rw [hpass1],
          emitRun_zero, hpass1]
      have hpass2 : passRes env
          ⟨st.fonts, 0, false, (utf8decode st.text 4).1, st.text, st.x,
            st.w, st.trace⟩ = ⟨0, st.text, none,
          (utf8decode st.text 4).1, false⟩ := by
        show innerLoop env st.fonts 0 false (utf8decode st.text 4).1
          st.text = _
        rw [htext]
        exact innerLoop_nohit env st.fonts 0 false _ b tail hb
          (by rw [scanIdx_noce, ← htext]; exact hfh)
      have hti2 : textIter env CAP
          ⟨st.fonts, 0, false, (utf8decode st.text 4).1, st.text, st.x,
            st.w, st.trace⟩ = Sum.inr
          ⟨st.fonts, 0, true, (utf8decode st.text 4).1, st.text, st.x,
            st.w, st.trace⟩ := by
        rw [textIter_matchnone env CAP
          ⟨st.fonts, 0, false, (utf8decode st.text 4).1, st.text, st.x,
            st.w, st.trace⟩
          (by rw [hpass2]; rw [htext]; exact hbend) (by rw [hpass2])
          hful hpat (by rw [hpass2]; exact hmatch)]
        rw [show (passRes env
            ⟨st.fonts, 0, false, (utf8decode st.text 4).1, st.text, st.x,
              st.w, st.trace⟩).consumed = 0 from by rw [hpass2],
          emitRun_zero, hpass2]
      obtain ⟨k, rfl⟩ : ∃ k, fuel = k + 2 := ⟨fuel - 2, by omega⟩
      show textLoop env CAP ((k + 1) + 1) st = _
      rw [textLoop]
      simp only [hti1]
      rw [textLoop]
      simp only [hti2]
      exact textLoop_inl env CAP k
        ⟨st.fonts, 0, true, (utf8decode st.text 4).1, st.text, st.x,
          st.w, st.trace⟩ _ (by omega)
        (textIter_last_consume env CAP
          ⟨st.fonts, 0, true, (utf8decode st.text 4).1, st.text, st.x,
            st.w, st.trace⟩ b tail Hm htext hb hfne rfl rfl hendr hinv)

unseal utf8decodeCont innerLoop shrinkLoop in
/-- Witness for C3: a lambda that no cached font covers is appended when
    the matched font carries it and becomes current; the same match is
    discarded with a fallback to cache[0] when the opened font lacks it;
    and on a total match failure the pending character is drawn with
    cache[0] even from current font index 1. -/
theorem fallback_acquisition_witness :
    (([⟨0, true, 1⟩, ⟨7, false, 2⟩] : List Fnt) =
        [⟨0, true, 1⟩] ++ [⟨7, false, 2⟩] ∧
      (1 : Nat) = [(⟨0, true, 1⟩ : Fnt)].length ∧
      ([⟨0, true, 1⟩, ⟨7, false, 2⟩] : List Fnt).getD 1 noFnt =
        (⟨7, false, 2⟩ : Fnt) ∧
      true = true) ∧
    (([⟨0, true, 1⟩] : List Fnt) = [⟨0, true, 1⟩] ∧ (0 : Nat) = 0 ∧
      true = true) ∧
    (textLoop ⟨fun _ _ => false, fun _ s => min s.length 65535,
        fun _ => none, fun _ => none, fun _ => none⟩ 3 5
        ⟨[⟨4, true, 1⟩, ⟨9, true, 1⟩], 1, true, 0, [65], 7,
          4294967295, []⟩ =
        some (Except.ok (8, [⟨4, true, 1⟩, ⟨9, true, 1⟩],
          [⟨0, 4, [65], 1, [65], 1⟩])) ∧
      (1 : Nat) ≤ 1) :=
  ⟨fallback_acquisition.1
      ⟨fun fid _ => decide (fid = 7), fun _ s => s.length, fun _ => some 5,
        fun _ => some (7, 2), fun _ => none⟩ 2
      ⟨[⟨0, true, 1⟩], 0, false, 0, [206, 187, 66], 0, 100, []⟩
      ⟨[⟨0, true, 1⟩, ⟨7, false, 2⟩], 1, true, 955, [206, 187, 66], 0,
        100, []⟩ 5 (7, 2)
      (by decide) (by decide) (by decide) (by decide) (by decide)
      (by decide) (by decide) (by decide),
    fallback_acquisition.2.1
      ⟨fun _ _ => false, fun _ s => s.length, fun _ => some 5,
        fun _ => some (7, 2), fun _ => none⟩ 2
      ⟨[⟨0, true, 1⟩], 0, false, 0, [206, 187, 66], 0, 100, []⟩
      ⟨[⟨0, true, 1⟩], 0, true, 955, [206, 187, 66], 0, 100, []⟩ 5 (7, 2)
      (by decide) (by decide) (by decide) (by decide) (by decide)
      (by decide) (by decide) (by decide),
    fallback_acquisition.2.2
      ⟨fun _ _ => false, fun _ s => min s.length 65535, fun _ => none,
        fun _ => none, fun _ => none⟩ 3
      ⟨[⟨4, true, 1⟩, ⟨9, true, 1⟩], 1, true, 0, [65], 7, 4294967295, []⟩
      5 65 []
      (fun _ s => Nat.lt_succ_of_le (Nat.min_le_right _ _))
      rfl (by decide) (by decide) rfl (by decide) (by decide) (by decide)
      (by decide) (by decide) (by decide) (by decide)⟩

end DrwSpec
